import Mathlib

/-!
Verification development for the FIVA email extractor
(`extractor.py`): the email-correction engine (`EmailProcessor`),
the line-by-line record parser (`SimplePDFExtractor.extrair_emails_pdf`),
the report builder (`gerar_lista_emails`) and the driver
(`processar_pdf_para_emails`).

Strings are modelled as `List Char`.  Python's regular expressions are
compiled, by hand, into structural matchers on character lists; each
matcher's doc comment names the regex it implements and the reasoning
(all the regexes used by the program are deterministic once one notes
that every separator character lies outside the neighbouring character
class, except for the backtracking in the domain part of the email
pattern, which is implemented explicitly).  ASCII character classes are
exact; the Unicode extent of Python's `\w`, `str.upper` and `str.strip`
is approximated by their ASCII behaviour, which is faithful on every
character class the program's regexes constrain.
-/

namespace Fiva

/-- Characters removed by Python `str.strip()` (ASCII whitespace). -/
def isPySpace (c : Char) : Bool :=
  c = ' ' || c = '\t' || c = '\n' || c = '\r' || c = '\x0b' || c = '\x0c'

/-- Python `s.strip()` on a character list. -/
def trim (s : List Char) : List Char :=
  ((s.dropWhile isPySpace).reverse.dropWhile isPySpace).reverse

/-- Python `s.strip().replace(" ", "")`: trim, then delete every space. -/
def preprocess (s : List Char) : List Char :=
  (trim s).filter (fun c => c ≠ ' ')

/-- Python `a.startswith(b)` on lists (helper for substring search). -/
def comecaCom : List Char → List Char → Bool
  | [], _ => true
  | _ :: _, [] => false
  | a :: as, b :: bs => a = b && comecaCom as bs

/-- Python `n in hay` substring containment on character lists. -/
def contem (n : List Char) : List Char → Bool
  | [] => n.isEmpty
  | c :: t => comecaCom n (c :: t) || contem n t

/-- Python `\w` (ASCII extent): letters, digits, underscore. -/
def isWordChar (c : Char) : Bool :=
  c.isAlphanum || c = '_'

/-- The character class `[\w\.-]` used for local parts and domains. -/
def isDomainChar (c : Char) : Bool :=
  isWordChar c || c = '.' || c = '-'

/-- Scans the reversed head of a string for the `@[\w\.-]+` part of the
end-anchored patterns of `correct_email`: the input is the reversed
remainder of the string after the malformed suffix; the match requires a
non-empty run of `[\w\.-]` characters immediately preceded by `@`.
Because `@` is not in the class, the captured group of the regex is
forced to be this maximal run, so no backtracking is needed.  Returns
the captured group (in reading order). -/
def grabDomainRev (rest : List Char) : Option (List Char) :=
  let dRev := rest.takeWhile isDomainChar
  match rest.dropWhile isDomainChar with
  | '@' :: _ => if dRev.isEmpty then none else some dRev.reverse
  | _ => none

/-- `re.search(r"@[\w\.-]+\.co$", s, re.IGNORECASE)` as a boolean:
the string ends with `.co` (case-insensitively) preceded by a non-empty
`[\w\.-]` run preceded by `@`. -/
def matchRuleA (p : List Char) : Bool :=
  match p.reverse with
  | o :: c :: dot :: rest =>
    o.toLower = 'o' && c.toLower = 'c' && dot = '.' && (grabDomainRev rest).isSome
  | _ => false

/-- `re.search(r"@([\w\.-]+)\.(c|)$", s, re.IGNORECASE)`: the string ends
with `.c` (case-insensitively) or with a bare `.`, preceded by a
non-empty `[\w\.-]` run preceded by `@`.  Returns the captured group
together with the stem of the string (everything before the matched
`.c` or `.` suffix, which is what `re.sub(r"\.(c|)$", ext, s)` keeps). -/
def ruleBMatch (p : List Char) : Option (List Char × List Char) :=
  match p.reverse with
  | [] => none
  | c :: rest =>
    if c.toLower = 'c' then
      match rest with
      | dot :: rest2 =>
        if dot = '.' then (grabDomainRev rest2).map (fun d => (d, rest2.reverse))
        else none
      | [] => none
    else if c = '.' then
      (grabDomainRev rest).map (fun d => (d, rest.reverse))
    else none

/-- The table `DOMINIOS_CONHECIDOS` of known domain roots, in definition
order (Python dict literals iterate in insertion order). -/
def DOMINIOS_CONHECIDOS : List (List Char × List (List Char)) :=
  [ ("gmail".toList, [".com".toList, ".pt".toList])
  , ("hotmail".toList, [".com".toList, ".pt".toList])
  , ("outlook".toList, [".com".toList, ".pt".toList])
  , ("sapo".toList, [".pt".toList])
  , ("live".toList, [".com".toList, ".pt".toList])
  , ("yahoo".toList, [".com".toList, ".pt".toList])
  , ("icloud".toList, [".com".toList])
  , ("mail".toList, [".pt".toList])
  , ("iol".toList, [".pt".toList])
  , ("clix".toList, [".pt".toList])
  , ("netcabo".toList, [".pt".toList]) ]

/-- The domain lookup loop of `correct_email`: the first table entry
whose root is contained in the lower-cased captured group
(`domain_part = match.group(1).lower()`) supplies its first extension;
if none matches, the fallback is `.com`. -/
def findExt (tbl : List (List Char × List (List Char))) (d : List Char) : List Char :=
  match tbl.find? (fun e => contem e.1 (d.map Char.toLower)) with
  | some e => e.2.headD (".com".toList)
  | none => ".com".toList

/-- A `{original, corrected}` entry of `corrections_log`. -/
structure LogEntry where
  original : List Char
  corrected : List Char
deriving DecidableEq, Repr

/-- The mutable state of an `EmailProcessor` instance: the domain table
(`self.common_domains`, set to `DOMINIOS_CONHECIDOS` by `__init__`) and
the corrections log. -/
structure EmailProcessor where
  common_domains : List (List Char × List (List Char))
  corrections_log : List LogEntry
deriving DecidableEq, Repr

/-- `EmailProcessor.correct_email`.  A Python argument that is not a
string is modelled as `none`.  Returns the `(corrected, was_changed)`
pair together with the updated processor state. -/
def correct_email (proc : EmailProcessor) :
    Option (List Char) → (List Char × Bool) × EmailProcessor
  | none => (([], false), proc)
  | some s =>
    if trim s = [] then (([], false), proc)
    else if matchRuleA (preprocess s) then
      ((preprocess s ++ ['m'], true),
       { proc with corrections_log :=
           proc.corrections_log ++ [⟨preprocess s, preprocess s ++ ['m']⟩] })
    else
      match ruleBMatch (preprocess s) with
      | some (d, stem) =>
        ((stem ++ findExt proc.common_domains d, true),
         { proc with corrections_log :=
             proc.corrections_log ++
               [⟨preprocess s, stem ++ findExt proc.common_domains d⟩] })
      | none => ((preprocess s, false), proc)

/-- The character class `[A-Za-z0-9._%+-]` of the validation pattern. -/
def isLocalChar (c : Char) : Bool :=
  c.isAlphanum || c = '.' || c = '_' || c = '%' || c = '+' || c = '-'

/-- The character class `[A-Za-z0-9.-]` of the validation pattern. -/
def isHostChar (c : Char) : Bool :=
  c.isAlphanum || c = '.' || c = '-'

/-- The `[A-Za-z0-9.-]+\.[A-Za-z]{2,}$` tail of the validation pattern
on the part after `@`: since the alphabetic TLD run is end-anchored and
`.` is not alphabetic, the TLD is forced to be the maximal alphabetic
suffix; it must have length at least two, be preceded by `.`, and the
non-empty remainder must consist of `[A-Za-z0-9.-]` characters. -/
def checkHost (rest : List Char) : Bool :=
  let revR := rest.reverse
  let tld := revR.takeWhile Char.isAlpha
  2 ≤ tld.length &&
    match revR.dropWhile Char.isAlpha with
    | '.' :: hrev => !hrev.isEmpty && hrev.all isHostChar
    | _ => false

/-- `EmailProcessor.validate_email`:
`re.match(r"^[A-Za-z0-9._%+-]+@[A-Za-z0-9.-]+\.[A-Za-z]{2,}$", ...)` on
the trimmed, space-stripped input (`@` lies in neither class, so the
local part is the maximal `[A-Za-z0-9._%+-]` prefix). -/
def validate_email (email : Option (List Char)) : Bool :=
  match email with
  | none => false
  | some s =>
    let p := preprocess s
    let l := p.takeWhile isLocalChar
    !l.isEmpty &&
      match p.dropWhile isLocalChar with
      | '@' :: rest => checkHost rest
      | _ => false

/-- The four status values of a `DonorRecord`. -/
inductive Status where
  | APTO
  | SUSPENSO
  | ELIMINADO
  | INDEFINIDO
deriving DecidableEq, Repr

/-- The string stored in the `Status` column for each status value. -/
def statusStr : Status → List Char
  | .APTO => "APTO".toList
  | .SUSPENSO => "SUSPENSO".toList
  | .ELIMINADO => "ELIMINADO".toList
  | .INDEFINIDO => "INDEFINIDO".toList

/-- One row of the extracted table (`dados.append({...})`).  The
`Sim`/`Não` columns are modelled as booleans. -/
structure Record where
  idDador : List Char
  nome : List Char
  emailOriginal : List Char
  emailCorrigido : List Char
  emailFoiAlterado : Bool
  status : Status
  temEmail : Bool
  anoRegisto : Option Int
deriving DecidableEq, Repr

/-- The character class `[a-zA-Z0-9\.]` ending the email pattern. -/
def isTldChar (c : Char) : Bool :=
  c.isAlphanum || c = '.'

/-- Backtracking of `[\w\.\-]+\.[a-zA-Z0-9\.]{1,}` inside the maximal
`[\w\.-]` run after `@`: the engine shortens the greedy `[\w\.-]+` from
the right, so the split happens at the last `.` of the run that is not
its first character and is followed by an `[a-zA-Z0-9.]` character.
The first argument accumulates the characters already passed over (in
reading order); the second is the still-unscanned part of the run,
reversed.  Returns the part before the dot and the greedy
`[a-zA-Z0-9.]` run after it.
The scan succeeds at a dot when at least one character has already been
passed over (the characters after the dot in reading order, held in the
accumulator), the first of them is in the TLD class, and at least one
character precedes the dot. -/
def headIsTld : List Char → Bool
  | t :: _ => isTldChar t
  | [] => false

/-- See `headIsTld` for the success condition of each step. -/
def splitDomRev (acc : List Char) : List Char → Option (List Char × List Char)
  | [] => none
  | c :: rest =>
    if c = '.' && headIsTld acc && !rest.isEmpty then
      some (rest.reverse, acc.takeWhile isTldChar)
    else splitDomRev (c :: acc) rest

/-- The `[\w\.\-]+\.[a-zA-Z0-9\.]{1,}` part of the email pattern applied
after an `@`: take the maximal `[\w\.-]` run and split it at a dot as
described at `splitDomRev`.  Returns the matched text. -/
def domainMatch (rest : List Char) : Option (List Char) :=
  (splitDomRev [] ((rest.takeWhile isDomainChar).reverse)).map
    (fun pr => pr.1 ++ '.' :: pr.2)

/-- Attempts `re.search(r"[\w\.\-]+@[\w\.\-]+\.[a-zA-Z0-9\.]{1,}", ...)`
anchored at the head of the list: the local part is forced to be the
maximal `[\w\.-]` run (`@` is outside the class), which must be
non-empty and followed by `@` and a matching domain. -/
def tryEmailAt (l : List Char) : Option (List Char) :=
  if (l.takeWhile isDomainChar).isEmpty then none
  else
    match l.dropWhile isDomainChar with
    | a :: rest =>
      if a = '@' then
        (domainMatch rest).map (fun dm => l.takeWhile isDomainChar ++ '@' :: dm)
      else none
    | [] => none

/-- `re.search` of the email pattern over the whole line: the match at
the leftmost feasible start position. -/
def findEmail : List Char → Option (List Char)
  | [] => none
  | c :: cs =>
    match tryEmailAt (c :: cs) with
    | some m => some m
    | none => findEmail cs

/-- The class `[A-Z0-9]` of the middle segment of the identifier. -/
def isIdSegChar (c : Char) : Bool :=
  c.isUpper || c.isDigit

/-- Attempts `re.search(r"(S[PCL]\.[A-Z0-9]+\.\d+/\d+)", ...)` anchored
at the head of the list.  Each run is forced to be maximal because the
following separator (`.` or `/`) lies outside the preceding class, and
the final `\d+` is greedy.  Returns the captured identifier together
with the rest of the line after the match (`linha[match_id.end():]`). -/
def matchIdAt : List Char → Option (List Char × List Char)
  | s :: x :: dot :: rest =>
    if s = 'S' && (x = 'P' || x = 'C' || x = 'L') && dot = '.' then
      if (rest.takeWhile isIdSegChar).isEmpty then none
      else
        match rest.dropWhile isIdSegChar with
        | d1 :: rest2 =>
          if d1 = '.' then
            if (rest2.takeWhile Char.isDigit).isEmpty then none
            else
              match rest2.dropWhile Char.isDigit with
              | sl :: rest3 =>
                if sl = '/' then
                  if (rest3.takeWhile Char.isDigit).isEmpty then none
                  else
                    some ('S' :: x :: '.' ::
                            (rest.takeWhile isIdSegChar ++ '.' ::
                              (rest2.takeWhile Char.isDigit ++ '/' ::
                                rest3.takeWhile Char.isDigit)),
                          rest3.dropWhile Char.isDigit)
                else none
              | [] => none
          else none
        | [] => none
    else none
  | _ => none

/-- `re.search` of the identifier pattern over the whole line (leftmost
match). -/
def findId : List Char → Option (List Char × List Char)
  | [] => none
  | c :: cs =>
    match matchIdAt (c :: cs) with
    | some r => some r
    | none => findId cs

/-- The uppercase letters (ASCII plus the accented set) of the name
pattern `[A-ZÀÁÂÃÇÉÊÍÓÔÕÚ]`. -/
def isNomeUpper (c : Char) : Bool :=
  c.isUpper || (['À', 'Á', 'Â', 'Ã', 'Ç', 'É', 'Ê', 'Í', 'Ó', 'Ô', 'Õ', 'Ú'].contains c)

/-- The class `[A-ZÀÁÂÃÇÉÊÍÓÔÕÚa-zàáâãçéêíóôõú\s]` continuing a name. -/
def isNomeChar (c : Char) : Bool :=
  isNomeUpper c || c.isLower ||
    (['à', 'á', 'â', 'ã', 'ç', 'é', 'ê', 'í', 'ó', 'ô', 'õ', 'ú'].contains c) ||
    isPySpace c

/-- The lookahead alternative `\s*\d{2}/\d{2}/\d{4}` (a date). -/
def lookDate (l : List Char) : Bool :=
  match l.dropWhile isPySpace with
  | a :: b :: s1 :: c :: d :: s2 :: e :: f :: g :: h :: _ =>
    a.isDigit && b.isDigit && s1 = '/' && c.isDigit && d.isDigit && s2 = '/' &&
      e.isDigit && f.isDigit && g.isDigit && h.isDigit
  | _ => false

/-- The lookahead alternative `\s*\w+@` (an email ahead). -/
def lookEmail (l : List Char) : Bool :=
  let l2 := l.dropWhile isPySpace
  !(l2.takeWhile isWordChar).isEmpty &&
    match l2.dropWhile isWordChar with
    | '@' :: _ => true
    | _ => false

/-- The lookahead `(?=\s*\d{2}/\d{2}/\d{4}|\s*\w+@|$)` of the name
pattern. -/
def nomeStop (l : List Char) : Bool :=
  lookDate l || lookEmail l || l.isEmpty

/-- The lazy `[...]+?` of the name pattern: extend the group one
character at a time (each must be in the name class) and stop at the
first position where the lookahead holds. -/
def nomeGo (acc : List Char) : List Char → Option (List Char)
  | [] => none
  | d :: rest =>
    if isNomeChar d then
      if nomeStop rest then some (acc ++ [d])
      else nomeGo (acc ++ [d]) rest
    else none

/-- `re.match` of the name pattern
`([A-ZÀÁÂÃÇÉÊÍÓÔÕÚ][A-ZÀÁÂÃÇÉÊÍÓÔÕÚa-zàáâãçéêíóôõú\s]+?)(?=...)` on the
stripped remainder of the line after the identifier, followed by
`.strip()` of the captured group; empty when there is no match. -/
def extractNome (r : List Char) : List Char :=
  match r with
  | c :: rest =>
    if isNomeUpper c then
      match nomeGo [c] rest with
      | some g => trim g
      | none => []
    else []
  | [] => []

/-- `re.search(r'/(\d{2})$', id)` plus the century rule: the identifier
must end in `/` followed by exactly two digits; a value below 50 maps to
the 2000s, otherwise to the 1900s. -/
def yearOfId (id : List Char) : Option Int :=
  match id.reverse with
  | d2 :: d1 :: sl :: _ =>
    if sl = '/' && d1.isDigit && d2.isDigit then
      some (if ((d1.toNat - '0'.toNat) * 10 + (d2.toNat - '0'.toNat) : Int) < 50
            then 2000 + ((d1.toNat - '0'.toNat) * 10 + (d2.toNat - '0'.toNat) : Int)
            else 1900 + ((d1.toNat - '0'.toNat) * 10 + (d2.toNat - '0'.toNat) : Int))
    else none
  | _ => none

/-- Python `str.upper()` (ASCII extent; the scanned keywords are ASCII). -/
def upperL (l : List Char) : List Char :=
  l.map Char.toUpper

/-- The section-header scan of the line loop: `APTOS`, `SUSPENSOS`,
`ELIMINADOS` checked in that order against the uppercased line; the
first hit replaces the carried status, otherwise the status is kept. -/
def headerUpdate (linha : List Char) (st : Status) : Status :=
  if contem ("APTOS".toList) (upperL linha) then .APTO
  else if contem ("SUSPENSOS".toList) (upperL linha) then .SUSPENSO
  else if contem ("ELIMINADOS".toList) (upperL linha) then .ELIMINADO
  else st

/-- The line-local status scan: `APTO`, `SUSPENSO`, `ELIMINADO` checked
in that order against the uppercased line. -/
def lineStatus (linha : List Char) : Option Status :=
  if contem ("APTO".toList) (upperL linha) then some .APTO
  else if contem ("SUSPENSO".toList) (upperL linha) then some .SUSPENSO
  else if contem ("ELIMINADO".toList) (upperL linha) then some .ELIMINADO
  else none

/-- The body of the `for linha in linhas` loop of
`extrair_emails_pdf`: update the section status, look for a donor
identifier and, when found, build the row. -/
def processar_linha (proc : EmailProcessor) (status_atual : Status)
    (linha : List Char) : Status × EmailProcessor × Option Record :=
  let st1 := headerUpdate linha status_atual
  match findId linha with
  | none => (st1, proc, none)
  | some (id_dador, resto0) =>
    let status := (lineStatus linha).getD st1
    let email_original := (findEmail linha).getD []
    let res := correct_email proc (some email_original)
    let email_corrigido := res.1.1
    let foi_corrigido := res.1.2
    let proc2 := res.2
    let tem_email := validate_email (some email_corrigido)
    let nome := extractNome (trim resto0)
    let ano_registo := if status = .ELIMINADO then yearOfId id_dador else none
    (st1, proc2,
     some { idDador := id_dador, nome := nome,
            emailOriginal := email_original,
            emailCorrigido := email_corrigido,
            emailFoiAlterado := foi_corrigido,
            status := status, temEmail := tem_email,
            anoRegisto := ano_registo })

/-- The line loop over a list of lines, threading the section status and
the processor state and collecting the appended rows in order. -/
def processar_linhas (proc : EmailProcessor) (st : Status) :
    List (List Char) → Status × EmailProcessor × List Record
  | [] => (st, proc, [])
  | l :: ls =>
    let r1 := processar_linha proc st l
    let r2 := processar_linhas r1.2.1 r1.1 ls
    (r2.1, r2.2.1, r1.2.2.toList ++ r2.2.2)

/-- Python `texto.split('\n')`. -/
def splitLines : List Char → List (List Char)
  | [] => [[]]
  | c :: cs =>
    match splitLines cs with
    | [] => [[c]]
    | l :: ls => if c = '\n' then [] :: l :: ls else (c :: l) :: ls

/-- The result of `pagina.extract_text()` for one page: an exception
(modelled by its message), or `None`, or the page text. -/
abbrev PageResult := Except (List Char) (Option (List Char))

/-- The page loop of `extrair_emails_pdf`: the status is set to
`INDEFINIDO` once before the loop and threaded through all pages; a page
whose text is `None` or empty is skipped; a raising page aborts the
whole run with the wrapped fatal message. -/
def extrairGo (proc : EmailProcessor) (st : Status) (acc : List Record) :
    List PageResult → Except (List Char) (List Record × EmailProcessor)
  | [] => .ok (acc, proc)
  | p :: ps =>
    match p with
    | .error e => .error (("Erro ao processar PDF: ".toList) ++ e)
    | .ok none => extrairGo proc st acc ps
    | .ok (some t) =>
      if t = [] then extrairGo proc st acc ps
      else
        let r := processar_linhas proc st (splitLines t)
        extrairGo r.2.1 r.1 (acc ++ r.2.2) ps

/-- `SimplePDFExtractor.extrair_emails_pdf`, with the external
`pdfplumber` collaborator abstracted into the list of per-page
extraction results. -/
def extrair_emails_pdf (proc : EmailProcessor) (pages : List PageResult) :
    Except (List Char) (List Record × EmailProcessor) :=
  extrairGo proc .INDEFINIDO [] pages

/-- `pandas.Series.unique`: deduplication keeping the first occurrence
of each value, in order. -/
def dedupFirst (seen : List (List Char)) : List (List Char) → List (List Char)
  | [] => []
  | x :: xs =>
    if x ∈ seen then dedupFirst seen xs
    else x :: dedupFirst (x :: seen) xs

/-- Decimal rendering of a natural number. -/
def natChars (n : Nat) : List Char :=
  (Nat.repr n).toList

/-- Decimal rendering of an integer. -/
def intChars (i : Int) : List Char :=
  (Int.repr i).toList

/-- The `"=" * 80` banner line. -/
def eq80 : List Char :=
  List.replicate 80 '='

/-- The `Ano Registo` column with nulls dropped
(`df['Ano Registo'].dropna()`), in row order. -/
def anosRegisto (df : List Record) : List Int :=
  df.filterMap (fun r => r.anoRegisto)

/-- `series.max()` on a list of integers. -/
def maxOf : List Int → Option Int
  | [] => none
  | x :: xs => some (xs.foldl max x)

/-- The cutoff basis of `gerar_lista_emails`: the current calendar year,
replaced by the maximum observed `Ano Registo` when one exists and
exceeds 2000. -/
def anoAtualBase (nowYear : Int) (df : List Record) : Int :=
  match maxOf (anosRegisto df) with
  | some m => if m > 2000 then m else nowYear
  | none => nowYear

/-- The `Ano Registo` filter of the `ELIMINADO` section:
`notna` and at or above the cutoff. -/
def anoOk (anoCorte : Int) (r : Record) : Bool :=
  match r.anoRegisto with
  | some y => anoCorte ≤ y
  | none => false

/-- The deduplicated corrected-email list of one status section: for
`ELIMINADO` the rows are filtered by status, then by a present
`Ano Registo` at or above the cutoff, then by `Tem Email`; for the other
statuses by status and `Tem Email`. -/
def emailsStatus (df : List Record) (anoCorte : Int) (st : Status) :
    List (List Char) :=
  if st = .ELIMINADO then
    dedupFirst []
      ((((df.filter (fun r => r.status = st)).filter (anoOk anoCorte)).filter
          (fun r => r.temEmail)).map (fun r => r.emailCorrigido))
  else
    dedupFirst []
      (((df.filter (fun r => r.status = st)).filter (fun r => r.temEmail)).map
        (fun r => r.emailCorrigido))

/-- `"; ".join(...)`. -/
def joinSemi (es : List (List Char)) : List Char :=
  List.intercalate ("; ".toList) es

/-- The lines appended for one status section of the report. -/
def secLines (df : List Record) (anoCorte : Int) (st : Status) :
    List (List Char) :=
  [eq80, ("📧 ".toList) ++ statusStr st ++ ("S".toList), eq80, []]
  ++ (if st = .ELIMINADO then
        [("FILTRO APLICADO: Apenas dadores eliminados dos últimos 3 anos (>=".toList)
           ++ intChars anoCorte ++ (")".toList),
         ("(Dadores eliminados antes de ".toList) ++ intChars anoCorte
           ++ (" foram excluídos para focar recursos de retenção)".toList),
         []]
      else [])
  ++ (if 0 < (emailsStatus df anoCorte st).length then
        [("Total: ".toList) ++ natChars (emailsStatus df anoCorte st).length
           ++ (" emails".toList), [],
         joinSemi (emailsStatus df anoCorte st), []]
      else
        [("Nenhum email válido encontrado para este status.".toList)])
  ++ [[]]

/-- The `{cobertura:.1f}` percentage of the statistics block.  Python
formats the double `validos/total*100`; this model rounds the exact
rational to one decimal (half away from zero), which agrees except on
ties introduced by binary rounding; no theorem depends on this line. -/
def fmtPct (validos total : Nat) : List Char :=
  if total = 0 then ("0.0".toList)
  else
    let n := (validos * 2000 + total) / (2 * total)
    natChars (n / 10) ++ (".".toList) ++ natChars (n % 10)

/-- `gerar_lista_emails`.  `nowYear` and `nowStr` stand for
`dt.datetime.now().year` and the formatted generation timestamp. -/
def gerar_lista_emails (nowYear : Int) (nowStr : List Char)
    (df : List Record) (proc : EmailProcessor) : List Char :=
  let ano_corte := anoAtualBase nowYear df - 3
  let total_validos := (df.filter (fun r => r.temEmail)).length
  let corrigidos := (df.filter (fun r => r.emailFoiAlterado)).length
  let linhas :=
    [eq80,
     ("LISTAGEM DE EMAILS PARA MAILING - FIVA Email Extractor".toList),
     ("Gerado em: ".toList) ++ nowStr,
     eq80,
     [],
     ("📊 ESTATÍSTICAS:".toList),
     ("   Total de emails válidos: ".toList) ++ natChars total_validos,
     ("   Emails corrigidos automaticamente: ".toList) ++ natChars corrigidos,
     ("   Cobertura: ".toList) ++ fmtPct total_validos df.length ++ ("%".toList),
     []]
    ++ secLines df ano_corte .APTO
    ++ secLines df ano_corte .SUSPENSO
    ++ secLines df ano_corte .ELIMINADO
    ++ (if corrigidos > 0 then
          [eq80, ("🔧 RELATÓRIO DE CORREÇÕES APLICADAS".toList), eq80, []]
          ++ proc.corrections_log.map (fun c =>
               ("   ".toList) ++ c.original ++ (" → ".toList) ++ c.corrected)
        else [])
  List.intercalate ("\n".toList) linhas

/-- `processar_pdf_para_emails`: builds a fresh `EmailProcessor`,
extracts the table, fails when it is empty and otherwise produces the
report. -/
def processar_pdf_para_emails (nowYear : Int) (nowStr : List Char)
    (pages : List PageResult) : Except (List Char) (List Char) :=
  match extrair_emails_pdf ⟨DOMINIOS_CONHECIDOS, []⟩ pages with
  | .error e => .error e
  | .ok (df, proc2) =>
    if df = [] then
      .error ("Nenhum dado extraído do PDF. Verifique se o formato está correto.".toList)
    else
      .ok (gerar_lista_emails nowYear nowStr df proc2)

/-! ### Generic list lemmas -/

theorem takeWhile_append_all {α : Type} {p : α → Bool} :
    ∀ (xs ys : List α), (∀ c ∈ xs, p c = true) →
      (xs ++ ys).takeWhile p = xs ++ ys.takeWhile p := by
  intro xs
  induction xs with
  | nil => intro ys _; rfl
  | cons a as ih =>
    intro ys h
    have ha : p a = true := h a (by simp)
    simp only [List.cons_append, List.takeWhile_cons, ha, if_true]
    rw [ih ys (fun c hc => h c (by simp [hc]))]

theorem dropWhile_append_all {α : Type} {p : α → Bool} :
    ∀ (xs ys : List α), (∀ c ∈ xs, p c = true) →
      (xs ++ ys).dropWhile p = ys.dropWhile p := by
  intro xs
  induction xs with
  | nil => intro ys _; rfl
  | cons a as ih =>
    intro ys h
    have ha : p a = true := h a (by simp)
    simp only [List.cons_append, List.dropWhile_cons, ha, if_true]
    exact ih ys (fun c hc => h c (by simp [hc]))

theorem takeWhile_cons_false {α : Type} {p : α → Bool} {a : α} (l : List α)
    (h : p a = false) : (a :: l).takeWhile p = [] := by
  simp [List.takeWhile_cons, h]

theorem dropWhile_cons_false {α : Type} {p : α → Bool} {a : α} (l : List α)
    (h : p a = false) : (a :: l).dropWhile p = a :: l := by
  simp [List.dropWhile_cons, h]

theorem filter_filter_and {α : Type} {p q : α → Bool} :
    ∀ l : List α, (l.filter p).filter q = l.filter (fun a => p a && q a) := by
  intro l
  induction l with
  | nil => rfl
  | cons a as ih =>
    by_cases hp : p a = true
    · by_cases hq : q a = true
      · simp [List.filter_cons, hp, hq, ih]
      · simp only [Bool.not_eq_true] at hq
        simp [List.filter_cons, hp, hq, ih]
    · simp only [Bool.not_eq_true] at hp
      simp [List.filter_cons, hp, ih]

/-! ### Lemmas about the rule matchers of the email corrector -/

theorem grabDomainRev_eq (d pre : List Char) (hd : d ≠ [])
    (hall : ∀ c ∈ d, isDomainChar c = true) :
    grabDomainRev (d.reverse ++ '@' :: pre) = some d := by
  have hrev : ∀ c ∈ d.reverse, isDomainChar c = true := by
    intro c hc; exact hall c (List.mem_reverse.mp hc)
  have hat : isDomainChar '@' = false := by decide
  unfold grabDomainRev
  rw [takeWhile_append_all d.reverse ('@' :: pre) hrev,
      dropWhile_append_all d.reverse ('@' :: pre) hrev,
      takeWhile_cons_false pre hat, dropWhile_cons_false pre hat]
  simp only [List.append_nil]
  have : d.reverse.isEmpty = false := by
    cases h : d.reverse with
    | nil => exact absurd (List.reverse_eq_nil_iff.mp h) hd
    | cons a as => rfl
  simp [this]

theorem matchRuleA_true (pre d : List Char) (c o : Char) (p : List Char)
    (hp : p = pre ++ '@' :: (d ++ ['.', c, o]))
    (hd : d ≠ []) (hall : ∀ x ∈ d, isDomainChar x = true)
    (hc : c.toLower = 'c') (ho : o.toLower = 'o') :
    matchRuleA p = true := by
  have hrev : p.reverse = o :: c :: '.' :: (d.reverse ++ '@' :: pre.reverse) := by
    subst hp; simp
  unfold matchRuleA
  rw [hrev]
  simp [hc, ho, grabDomainRev_eq d pre.reverse hd hall]

theorem ruleBMatch_c (pre d : List Char) (c : Char) (p : List Char)
    (hp : p = pre ++ '@' :: (d ++ ['.', c]))
    (hd : d ≠ []) (hall : ∀ x ∈ d, isDomainChar x = true)
    (hc : c.toLower = 'c') :
    ruleBMatch p = some (d, pre ++ '@' :: d) := by
  have hrev : p.reverse = c :: '.' :: (d.reverse ++ '@' :: pre.reverse) := by
    subst hp; simp
  unfold ruleBMatch
  rw [hrev]
  simp [hc, grabDomainRev_eq d pre.reverse hd hall]

theorem ruleBMatch_dot (pre d : List Char) (p : List Char)
    (hp : p = pre ++ '@' :: (d ++ ['.']))
    (hd : d ≠ []) (hall : ∀ x ∈ d, isDomainChar x = true) :
    ruleBMatch p = some (d, pre ++ '@' :: d) := by
  have hrev : p.reverse = '.' :: (d.reverse ++ '@' :: pre.reverse) := by
    subst hp; simp
  have hdotc : ('.' : Char).toLower = 'c' ↔ False := by decide
  unfold ruleBMatch
  rw [hrev]
  simp [hdotc, grabDomainRev_eq d pre.reverse hd hall]

theorem matchRuleA_of_ruleB_c (pre d : List Char) (c : Char) (p : List Char)
    (hp : p = pre ++ '@' :: (d ++ ['.', c])) (hc : c.toLower = 'c') :
    matchRuleA p = false := by
  have hrev : p.reverse = c :: '.' :: (d.reverse ++ '@' :: pre.reverse) := by
    subst hp; simp
  unfold matchRuleA
  rw [hrev]
  have hco : (c.toLower = 'o') = False := by
    simp only [eq_iff_iff, iff_false]
    intro h; rw [h] at hc; exact absurd hc (by decide)
  cases h2 : d.reverse ++ '@' :: pre.reverse with
  | nil => simp at h2
  | cons b bs => simp [hco]

theorem matchRuleA_of_ruleB_dot (pre d : List Char) (p : List Char)
    (hp : p = pre ++ '@' :: (d ++ ['.'])) (hd : d ≠ []) :
    matchRuleA p = false := by
  obtain ⟨a, as, ha⟩ : ∃ a as, d.reverse = a :: as := by
    cases h : d.reverse with
    | nil => exact absurd (List.reverse_eq_nil_iff.mp h) hd
    | cons a as => exact ⟨a, as, rfl⟩
  have hrev : p.reverse = '.' :: a :: (as ++ '@' :: pre.reverse) := by
    subst hp; simp [ha]
  unfold matchRuleA
  rw [hrev]
  cases h2 : as ++ '@' :: pre.reverse with
  | nil => simp at h2
  | cons b bs => simp

/-! ### Stability of trimming and space-stripping -/

theorem dropWhile_self_of_head {α : Type} {p : α → Bool} {l : List α}
    (h : ∀ c, l.head? = some c → p c = false) : l.dropWhile p = l := by
  cases l with
  | nil => rfl
  | cons a as => exact dropWhile_cons_false as (h a rfl)

theorem dropWhile_self_head {α : Type} {p : α → Bool} {l : List α}
    (h : l.dropWhile p = l) : ∀ c, l.head? = some c → p c = false := by
  intro c hc
  cases l with
  | nil => simp at hc
  | cons a as =>
    have hac : a = c := by simpa using hc
    subst hac
    cases hpa : p a with
    | false => rfl
    | true =>
      exfalso
      rw [List.dropWhile_cons, if_pos (by rw [hpa])] at h
      have hle : (as.dropWhile p).length ≤ as.length :=
        (List.dropWhile_suffix p).length_le
      rw [h] at hle
      simp at hle

theorem dropWhile_idem {α : Type} {p : α → Bool} (l : List α) :
    (l.dropWhile p).dropWhile p = l.dropWhile p := by
  induction l with
  | nil => rfl
  | cons a as ih =>
    cases hpa : p a with
    | true => simp only [List.dropWhile_cons, hpa, if_true]; exact ih
    | false => simp only [List.dropWhile_cons, hpa]; simp [hpa]

theorem trim_eq_self {l : List Char}
    (h1 : l.dropWhile isPySpace = l)
    (h2 : l.reverse.dropWhile isPySpace = l.reverse) : trim l = l := by
  unfold trim
  rw [h1, h2, List.reverse_reverse]

theorem trim_dropWhile_self (s : List Char) :
    (trim s).dropWhile isPySpace = trim s := by
  unfold trim
  set B := s.dropWhile isPySpace with hB
  have hsuf : (B.reverse.dropWhile isPySpace) <:+ B.reverse :=
    List.dropWhile_suffix isPySpace
  obtain ⟨t, ht⟩ := hsuf
  have hBeq : B = (B.reverse.dropWhile isPySpace).reverse ++ t.reverse := by
    have := congrArg List.reverse ht
    simpa using this.symm
  apply dropWhile_self_of_head
  intro c hc
  cases hrc : (B.reverse.dropWhile isPySpace).reverse with
  | nil => rw [hrc] at hc; simp at hc
  | cons a as =>
    rw [hrc] at hc
    have hac : a = c := by simpa using hc
    subst hac
    have hBhead : B.head? = some a := by
      rw [hBeq, hrc]; rfl
    have hself := @dropWhile_self_head Char isPySpace B
      (by rw [hB]; exact dropWhile_idem s)
    exact hself a hBhead

theorem trim_rev_dropWhile_self (s : List Char) :
    (trim s).reverse.dropWhile isPySpace = (trim s).reverse := by
  unfold trim
  rw [List.reverse_reverse]
  exact dropWhile_idem _

theorem trim_trim (s : List Char) : trim (trim s) = trim s :=
  trim_eq_self (trim_dropWhile_self s) (trim_rev_dropWhile_self s)

theorem filter_dropWhile_self {p q : Char → Bool} {l : List Char}
    (h : l.dropWhile p = l) (hpq : ∀ c, p c = false → q c = true) :
    (l.filter q).dropWhile p = l.filter q := by
  cases l with
  | nil => rfl
  | cons a as =>
    have hpa : p a = false := dropWhile_self_head h a rfl
    rw [List.filter_cons, if_pos (hpq a hpa)]
    exact dropWhile_cons_false _ hpa

theorem filter_reverse_eq {q : Char → Bool} :
    ∀ l : List Char, (l.filter q).reverse = l.reverse.filter q := by
  intro l
  induction l with
  | nil => rfl
  | cons a as ih =>
    rw [List.reverse_cons, List.filter_append, ← ih]
    cases hq : q a with
    | true => simp [List.filter_cons, hq]
    | false => simp [List.filter_cons, hq]

theorem space_ok {c : Char} (h : isPySpace c = false) :
    (decide (c ≠ ' ')) = true := by
  simp only [decide_eq_true_eq]
  intro hc
  rw [hc] at h
  exact absurd h (by decide)

theorem preprocess_head (s : List Char) :
    ∀ c, (preprocess s).head? = some c → isPySpace c = false := by
  apply dropWhile_self_head
  exact filter_dropWhile_self (trim_dropWhile_self s) (fun c hc => space_ok hc)

theorem preprocess_revhead (s : List Char) :
    ∀ c, (preprocess s).reverse.head? = some c → isPySpace c = false := by
  apply dropWhile_self_head
  unfold preprocess
  rw [filter_reverse_eq]
  exact filter_dropWhile_self (trim_rev_dropWhile_self s) (fun c hc => space_ok hc)

theorem preprocess_no_space (s : List Char) :
    ∀ c ∈ preprocess s, c ≠ ' ' := by
  intro c hc
  unfold preprocess at hc
  exact of_decide_eq_true (List.mem_filter.mp hc).2

theorem preprocess_eq_self {l : List Char}
    (hh : ∀ c, l.head? = some c → isPySpace c = false)
    (hl : ∀ c, l.reverse.head? = some c → isPySpace c = false)
    (hq : ∀ c ∈ l, c ≠ ' ') : preprocess l = l := by
  unfold preprocess
  rw [trim_eq_self (dropWhile_self_of_head hh) (dropWhile_self_of_head hl)]
  rw [List.filter_eq_self]
  intro a ha
  exact decide_eq_true (hq a ha)

theorem preprocess_idem (s : List Char) :
    preprocess (preprocess s) = preprocess s :=
  preprocess_eq_self (preprocess_head s) (preprocess_revhead s) (preprocess_no_space s)

theorem preprocess_nil_of_trim {s : List Char} (h : trim s = []) :
    preprocess s = [] := by
  unfold preprocess
  rw [h]
  rfl

theorem trim_ne_nil_of_preprocess {s : List Char} (h : preprocess s ≠ []) :
    trim s ≠ [] := by
  intro hc
  exact h (preprocess_nil_of_trim hc)

/-! ### Inversion of the Rule B matcher and the table lookup -/

theorem grabDomainRev_ne_nil {r d : List Char} (h : grabDomainRev r = some d) :
    r ≠ [] := by
  intro hr
  subst hr
  simp [grabDomainRev] at h

theorem ruleBMatch_some (p d stem : List Char)
    (h : ruleBMatch p = some (d, stem)) :
    stem ≠ [] ∧
      (p = stem ++ ['.'] ∨ ∃ c, c.toLower = 'c' ∧ p = stem ++ ['.', c]) := by
  unfold ruleBMatch at h
  split at h
  · simp at h
  · next c rest hrev =>
    have hp : p = rest.reverse ++ [c] := by
      have := congrArg List.reverse hrev
      simpa using this
    split at h
    · next hc =>
      split at h
      · next dot rest2 =>
        split at h
        · next hdot =>
          cases hg : grabDomainRev rest2 with
          | none => rw [hg] at h; simp at h
          | some d0 =>
            rw [hg] at h
            simp only [Option.map_some', Option.some_inj, Prod.mk.injEq] at h
            obtain ⟨hd0, hstem⟩ := h
            subst hdot
            refine ⟨?_, Or.inr ⟨c, hc, ?_⟩⟩
            · rw [← hstem]
              intro hnil
              exact grabDomainRev_ne_nil hg (by simpa using hnil)
            · rw [← hstem, hp]
              simp
        · simp at h
      · simp at h
    · next hc =>
      split at h
      · next hdc =>
        cases hg : grabDomainRev rest with
        | none => rw [hg] at h; simp at h
        | some d0 =>
          rw [hg] at h
          simp only [Option.map_some', Option.some_inj, Prod.mk.injEq] at h
          obtain ⟨hd0, hstem⟩ := h
          subst hdc
          refine ⟨?_, Or.inl ?_⟩
          · rw [← hstem]
            intro hnil
            exact grabDomainRev_ne_nil hg (by simpa using hnil)
          · rw [← hstem, hp]
      · simp at h

theorem findExt_cases (d : List Char) :
    findExt DOMINIOS_CONHECIDOS d = ".com".toList ∨
      findExt DOMINIOS_CONHECIDOS d = ".pt".toList := by
  unfold findExt
  cases h : DOMINIOS_CONHECIDOS.find? (fun e => contem e.1 (d.map Char.toLower)) with
  | none => left; rfl
  | some e =>
    have hm := List.mem_of_find?_eq_some h
    simp only [DOMINIOS_CONHECIDOS, List.mem_cons, List.not_mem_nil, or_false] at hm
    rcases hm with h1|h1|h1|h1|h1|h1|h1|h1|h1|h1|h1 <;> subst h1 <;>
      first
        | exact Or.inl rfl
        | exact Or.inr rfl

/-! ### The rule matchers reject already-corrected strings -/

theorem matchRuleA_snoc (l : List Char) (c : Char) (hc : c.toLower ≠ 'o') :
    matchRuleA (l ++ [c]) = false := by
  unfold matchRuleA
  rw [List.reverse_append]
  cases l.reverse with
  | nil => rfl
  | cons a as =>
    cases as with
    | nil => rfl
    | cons b bs => simp [hc]

theorem ruleBMatch_snoc (l : List Char) (c : Char)
    (h1 : c.toLower ≠ 'c') (h2 : c ≠ '.') :
    ruleBMatch (l ++ [c]) = none := by
  unfold ruleBMatch
  rw [List.reverse_append]
  simp [h1, h2]

/-! ### Behaviour of correct_email on the three branches -/

theorem correct_email_ruleA {tbl : List (List Char × List (List Char))}
    {log : List LogEntry} {s : List Char}
    (hg : trim s ≠ []) (hA : matchRuleA (preprocess s) = true) :
    correct_email ⟨tbl, log⟩ (some s) =
      ((preprocess s ++ ['m'], true),
       ⟨tbl, log ++ [⟨preprocess s, preprocess s ++ ['m']⟩]⟩) := by
  simp only [correct_email]
  rw [if_neg hg, if_pos hA]

theorem correct_email_ruleB {tbl : List (List Char × List (List Char))}
    {log : List LogEntry} {s d stem : List Char}
    (hg : trim s ≠ []) (hA : matchRuleA (preprocess s) = false)
    (hB : ruleBMatch (preprocess s) = some (d, stem)) :
    correct_email ⟨tbl, log⟩ (some s) =
      ((stem ++ findExt tbl d, true),
       ⟨tbl, log ++ [⟨preprocess s, stem ++ findExt tbl d⟩]⟩) := by
  simp only [correct_email]
  rw [if_neg hg, if_neg (by rw [hA]; exact Bool.false_ne_true), hB]

theorem correct_email_unchanged {tbl : List (List Char × List (List Char))}
    {log : List LogEntry} {s : List Char}
    (hg : trim s ≠ []) (hA : matchRuleA (preprocess s) = false)
    (hB : ruleBMatch (preprocess s) = none) :
    correct_email ⟨tbl, log⟩ (some s) = ((preprocess s, false), ⟨tbl, log⟩) := by
  simp only [correct_email]
  rw [if_neg hg, if_neg (by rw [hA]; exact Bool.false_ne_true), hB]

theorem preprocess_ne_nil_of_trim {s : List Char} (h : trim s ≠ []) :
    preprocess s ≠ [] := by
  cases htr : trim s with
  | nil => exact absurd htr h
  | cons c cs =>
    have hc : isPySpace c = false :=
      dropWhile_self_head (trim_dropWhile_self s) c (by rw [htr]; rfl)
    unfold preprocess
    rw [htr, List.filter_cons, if_pos (space_ok hc)]
    simp

theorem preprocess_eq_self_of_parts {p : List Char} (stem t suf : List Char)
    (hsplit : preprocess p = stem ++ suf) (hstem : stem ≠ []) (ht : t ≠ [])
    (htc : ∀ c ∈ t, isPySpace c = false ∧ c ≠ ' ') :
    preprocess (stem ++ t) = stem ++ t := by
  apply preprocess_eq_self
  · intro c hc
    cases hs : stem with
    | nil => exact absurd hs hstem
    | cons a as =>
      rw [hs] at hc
      have hac : a = c := by simpa using hc
      subst hac
      apply preprocess_head p
      rw [hsplit, hs]
      rfl
  · intro c hc
    rw [List.reverse_append] at hc
    cases htr : t.reverse with
    | nil => exact absurd (by simpa using htr) ht
    | cons b bs =>
      rw [htr] at hc
      have hbc : b = c := by simpa using hc
      subst hbc
      have hbt : b ∈ t := by
        rw [← List.mem_reverse, htr]
        simp
      exact (htc b hbt).1
  · intro c hc
    rcases List.mem_append.mp hc with hc1 | hc2
    · apply preprocess_no_space p
      rw [hsplit]
      exact List.mem_append.mpr (Or.inl hc1)
    · exact (htc c hc2).2

theorem correct_email_fixedpoint {tbl : List (List Char × List (List Char))}
    {log : List LogEntry} {q : List Char} (hne : q ≠ [])
    (hpp : preprocess q = q)
    (hA : matchRuleA q = false) (hB : ruleBMatch q = none) :
    correct_email ⟨tbl, log⟩ (some q) = ((q, false), ⟨tbl, log⟩) := by
  have hg : trim q ≠ [] := by
    intro h
    have := preprocess_nil_of_trim h
    rw [hpp] at this
    exact hne this
  rw [correct_email_unchanged hg (by rw [hpp]; exact hA) (by rw [hpp]; exact hB),
      hpp]

/-- C2: for every input string whose trimmed, space-stripped form ends
case-insensitively in an at-sign, a non-empty domain-character run and
`.co`, `correct_email` returns that form with exactly one `m` appended
and `changed = true`; the result holds for every domain table, so such
a string is never decided by the Rule B table lookup (Rule A is tried
first and the two rules are mutually exclusive). -/
theorem correct_email_ruleA_co (tbl : List (List Char × List (List Char)))
    (log : List LogEntry) (s pre d : List Char) (c o : Char)
    (hp : preprocess s = pre ++ '@' :: (d ++ ['.', c, o]))
    (hd : d ≠ []) (hall : ∀ x ∈ d, isDomainChar x = true)
    (hc : c.toLower = 'c') (ho : o.toLower = 'o') :
    (correct_email ⟨tbl, log⟩ (some s)).1 = (preprocess s ++ ['m'], true) := by
  have hA : matchRuleA (preprocess s) = true :=
    matchRuleA_true pre d c o _ hp hd hall hc ho
  have hg : trim s ≠ [] := trim_ne_nil_of_preprocess (by rw [hp]; simp)
  rw [correct_email_ruleA hg hA]

/-- C2 witness: the concrete input `a@b.CO` (exercising the
case-insensitive match) gains exactly one `m`. -/
theorem correct_email_ruleA_co_witness :
    preprocess ("a@b.CO".toList) =
        ("a".toList) ++ '@' :: (("b".toList) ++ ['.', 'C', 'O'])
    ∧ (correct_email ⟨DOMINIOS_CONHECIDOS, []⟩ (some ("a@b.CO".toList))).1
        = (preprocess ("a@b.CO".toList) ++ ['m'], true) :=
  ⟨by decide,
   correct_email_ruleA_co DOMINIOS_CONHECIDOS [] _ ("a".toList) ("b".toList)
     'C' 'O' (by decide) (by decide) (by decide) (by decide) (by decide)⟩

/-- C1: for every input string whose trimmed, space-stripped form ends
case-insensitively in an at-sign, a non-empty domain-character run and
then `.c` or a bare `.` (and hence not `.co`), `correct_email` replaces
the malformed suffix by `findExt` of the captured domain-character run —
the first listed extension of the first table entry, in definition
order, whose root is a substring of the captured group, or `.com` when
no entry matches — and reports `changed = true`. -/
theorem correct_email_ruleB_lookup (log : List LogEntry)
    (s pre d suf : List Char)
    (hp : preprocess s = pre ++ '@' :: (d ++ suf))
    (hd : d ≠ []) (hall : ∀ x ∈ d, isDomainChar x = true)
    (hsuf : (∃ c, suf = ['.', c] ∧ c.toLower = 'c') ∨ suf = ['.']) :
    (correct_email ⟨DOMINIOS_CONHECIDOS, log⟩ (some s)).1
      = ((pre ++ '@' :: d) ++ findExt DOMINIOS_CONHECIDOS d, true) := by
  have hg : trim s ≠ [] := trim_ne_nil_of_preprocess (by rw [hp]; simp)
  rcases hsuf with ⟨c, rfl, hc⟩ | rfl
  · have hA := matchRuleA_of_ruleB_c pre d c _ hp hc
    have hB := ruleBMatch_c pre d c _ hp hd hall hc
    rw [correct_email_ruleB hg hA hB]
  · have hA := matchRuleA_of_ruleB_dot pre d _ hp hd
    have hB := ruleBMatch_dot pre d _ hp hd hall
    rw [correct_email_ruleB hg hA hB]

/-- C1 witness: `a@sapo.c` is repaired through the table entry for
`sapo` (first extension `.pt`). -/
theorem correct_email_ruleB_lookup_witness :
    preprocess ("a@sapo.c".toList) =
        ("a".toList) ++ '@' :: (("sapo".toList) ++ ['.', 'c'])
    ∧ (correct_email ⟨DOMINIOS_CONHECIDOS, []⟩ (some ("a@sapo.c".toList))).1
        = ((("a".toList) ++ '@' :: ("sapo".toList))
             ++ findExt DOMINIOS_CONHECIDOS ("sapo".toList), true) :=
  ⟨by decide,
   correct_email_ruleB_lookup [] _ ("a".toList) ("sapo".toList) ['.', 'c']
     (by decide) (by decide) (by decide) (Or.inl ⟨'c', rfl, by decide⟩)⟩

theorem correct_email_nil (proc : EmailProcessor) :
    correct_email proc (some []) = (([], false), proc) := by
  simp only [correct_email]
  rw [if_pos (show trim [] = [] from rfl)]

/-- C9: `correct_email` is idempotent — for every input string, running
it again on the corrected output returns that output unchanged with
`changed = false`, whatever the state of the two correction logs. -/
theorem correct_email_idempotent (log log2 : List LogEntry) (s : List Char) :
    (correct_email ⟨DOMINIOS_CONHECIDOS, log2⟩
        (some (correct_email ⟨DOMINIOS_CONHECIDOS, log⟩ (some s)).1.1)).1
      = ((correct_email ⟨DOMINIOS_CONHECIDOS, log⟩ (some s)).1.1, false) := by
  by_cases hg : trim s = []
  · have hinner : correct_email ⟨DOMINIOS_CONHECIDOS, log⟩ (some s)
        = (([], false), ⟨DOMINIOS_CONHECIDOS, log⟩) := by
      simp only [correct_email, if_pos hg]
    rw [hinner]
    show (correct_email ⟨DOMINIOS_CONHECIDOS, log2⟩ (some [])).1 = ([], false)
    rw [correct_email_nil]
  · have hpne : preprocess s ≠ [] := preprocess_ne_nil_of_trim hg
    cases hA : matchRuleA (preprocess s) with
    | true =>
      rw [correct_email_ruleA hg hA]
      have hqeq : preprocess (preprocess s ++ ['m']) = preprocess s ++ ['m'] :=
        @preprocess_eq_self_of_parts s (preprocess s) ['m'] []
          (by simp) hpne (by simp) (by decide)
      have hqne : preprocess s ++ ['m'] ≠ [] := by simp
      rw [correct_email_fixedpoint hqne hqeq
            (matchRuleA_snoc _ 'm' (by decide))
            (ruleBMatch_snoc _ 'm' (by decide) (by decide))]
    | false =>
      cases hB : ruleBMatch (preprocess s) with
      | none =>
        rw [correct_email_unchanged hg hA hB]
        rw [correct_email_fixedpoint hpne (preprocess_idem s) hA hB]
      | some r =>
        obtain ⟨d, stem⟩ := r
        rw [correct_email_ruleB hg hA hB]
        obtain ⟨hstem, hsplit⟩ := ruleBMatch_some _ d stem hB
        have hsp : ∃ suf, preprocess s = stem ++ suf := by
          rcases hsplit with h1 | ⟨c, _, h2⟩
          · exact ⟨['.'], h1⟩
          · exact ⟨['.', c], h2⟩
        obtain ⟨suf, hsuf⟩ := hsp
        rcases findExt_cases d with hext | hext <;> rw [hext]
        · have hqeq : preprocess (stem ++ ".com".toList) = stem ++ ".com".toList :=
            preprocess_eq_self_of_parts stem (".com".toList) suf hsuf hstem
              (by decide) (by decide)
          have hcom : stem ++ ".com".toList = (stem ++ ['.', 'c', 'o']) ++ ['m'] := by
            simp
          rw [correct_email_fixedpoint (by simp) hqeq
                (by rw [hcom]; exact matchRuleA_snoc _ 'm' (by decide))
                (by rw [hcom]; exact ruleBMatch_snoc _ 'm' (by decide) (by decide))]
        · have hqeq : preprocess (stem ++ ".pt".toList) = stem ++ ".pt".toList :=
            preprocess_eq_self_of_parts stem (".pt".toList) suf hsuf hstem
              (by decide) (by decide)
          have hpt : stem ++ ".pt".toList = (stem ++ ['.', 'p']) ++ ['t'] := by
            simp
          rw [correct_email_fixedpoint (by simp) hqeq
                (by rw [hpt]; exact matchRuleA_snoc _ 't' (by decide))
                (by rw [hpt]; exact ruleBMatch_snoc _ 't' (by decide) (by decide))]

/-- C10: the `(corrected, changed)` pair computed by `correct_email`
depends only on the input, never on the accumulated corrections log, and
a call changes the processor state exactly by appending one
`{original, corrected}` entry when `changed = true` and not at all
otherwise (the domain table is never modified). -/
theorem correct_email_log_independent
    (tbl : List (List Char × List (List Char)))
    (log1 log2 : List LogEntry) (email : Option (List Char)) :
    (correct_email ⟨tbl, log1⟩ email).1 = (correct_email ⟨tbl, log2⟩ email).1
    ∧ (correct_email ⟨tbl, log1⟩ email).2 =
        ⟨tbl, log1 ++
          (if (correct_email ⟨tbl, log1⟩ email).1.2 then
            [⟨preprocess (email.getD []),
              (correct_email ⟨tbl, log1⟩ email).1.1⟩]
          else [])⟩ := by
  cases email with
  | none => exact ⟨rfl, by simp [correct_email]⟩
  | some s =>
    by_cases hg : trim s = []
    · constructor
      · simp only [correct_email, if_pos hg]
      · simp only [correct_email, if_pos hg]
        simp
    · cases hA : matchRuleA (preprocess s) with
      | true =>
        rw [correct_email_ruleA hg hA, correct_email_ruleA hg hA]
        exact ⟨rfl, rfl⟩
      | false =>
        cases hB : ruleBMatch (preprocess s) with
        | none =>
          rw [correct_email_unchanged hg hA hB, correct_email_unchanged hg hA hB]
          exact ⟨rfl, by simp⟩
        | some r =>
          obtain ⟨d, stem⟩ := r
          rw [correct_email_ruleB hg hA hB, correct_email_ruleB hg hA hB]
          exact ⟨rfl, rfl⟩

/-! ### Inversion of the per-line record construction -/

theorem processar_linha_none {proc : EmailProcessor} {st : Status}
    {linha : List Char} (hf : findId linha = none) :
    processar_linha proc st linha = (headerUpdate linha st, proc, none) := by
  simp only [processar_linha, hf]

theorem processar_linha_some {proc : EmailProcessor} {st : Status}
    {linha id0 resto0 : List Char} (hf : findId linha = some (id0, resto0)) :
    processar_linha proc st linha =
      (headerUpdate linha st,
       (correct_email proc (some ((findEmail linha).getD []))).2,
       some { idDador := id0,
              nome := extractNome (trim resto0),
              emailOriginal := (findEmail linha).getD [],
              emailCorrigido :=
                (correct_email proc (some ((findEmail linha).getD []))).1.1,
              emailFoiAlterado :=
                (correct_email proc (some ((findEmail linha).getD []))).1.2,
              status := (lineStatus linha).getD (headerUpdate linha st),
              temEmail := validate_email
                (some ((correct_email proc (some ((findEmail linha).getD []))).1.1)),
              anoRegisto :=
                if (lineStatus linha).getD (headerUpdate linha st) = .ELIMINADO
                then yearOfId id0 else none }) := by
  simp only [processar_linha, hf]

theorem mem_processar_linhas {proc : EmailProcessor} {st : Status}
    {lines : List (List Char)} {r : Record}
    (h : r ∈ (processar_linhas proc st lines).2.2) :
    ∃ proc' st' l, (processar_linha proc' st' l).2.2 = some r := by
  induction lines generalizing proc st with
  | nil => simp [processar_linhas] at h
  | cons l ls ih =>
    simp only [processar_linhas] at h
    rcases List.mem_append.mp h with h1 | h2
    · refine ⟨proc, st, l, ?_⟩
      cases hr : (processar_linha proc st l).2.2 with
      | none => rw [hr] at h1; simp at h1
      | some r0 =>
        rw [hr] at h1
        simp only [Option.toList_some, List.mem_singleton] at h1
        subst h1
        rfl
    · exact ih h2

/-! ### The year-of-identifier computation -/

theorem yearOfId_decomp (p : List Char) (d1 d2 : Char)
    (h1 : d1.isDigit = true) (h2 : d2.isDigit = true) :
    yearOfId (p ++ ['/', d1, d2]) =
      some (if ((d1.toNat - '0'.toNat) * 10 + (d2.toNat - '0'.toNat) : Int) < 50
            then 2000 + ((d1.toNat - '0'.toNat) * 10 + (d2.toNat - '0'.toNat) : Int)
            else 1900 + ((d1.toNat - '0'.toNat) * 10 + (d2.toNat - '0'.toNat) : Int)) := by
  have hrev : (p ++ ['/', d1, d2]).reverse = d2 :: d1 :: '/' :: p.reverse := by
    simp
  unfold yearOfId
  rw [hrev]
  simp [h1, h2]

theorem yearOfId_some_iff (id : List Char) :
    (∃ y, yearOfId id = some y) ↔
      ∃ p d1 d2, id = p ++ ['/', d1, d2] ∧ d1.isDigit = true ∧ d2.isDigit = true := by
  constructor
  · rintro ⟨y, hy⟩
    unfold yearOfId at hy
    split at hy
    · next d2 d1 sl rest hrev =>
      split at hy
      · next hcond =>
        simp only [Bool.and_eq_true, decide_eq_true_eq] at hcond
        obtain ⟨⟨hsl, hd1⟩, hd2⟩ := hcond
        subst hsl
        refine ⟨rest.reverse, d1, d2, ?_, hd1, hd2⟩
        have := congrArg List.reverse hrev
        simpa using this
      · simp at hy
    · simp at hy
  · rintro ⟨p, d1, d2, rfl, h1, h2⟩
    exact ⟨_, yearOfId_decomp p d1 d2 h1 h2⟩

/-- C4: for every parsed record, `registration_year` is set if and only
if the record's effective status is `ELIMINADO` and the identifier ends
in `/` followed by exactly two digits; when set, the two-digit value YY
maps to `2000 + YY` when below fifty and to `1900 + YY` otherwise. -/
theorem registration_year_iff {proc : EmailProcessor} {st : Status}
    {lines : List (List Char)} {r : Record}
    (h : r ∈ (processar_linhas proc st lines).2.2) :
    ((∃ y, r.anoRegisto = some y) ↔
        (r.status = .ELIMINADO ∧
         ∃ p d1 d2, r.idDador = p ++ ['/', d1, d2] ∧
           d1.isDigit = true ∧ d2.isDigit = true))
    ∧ (∀ p d1 d2, r.idDador = p ++ ['/', d1, d2] →
        d1.isDigit = true → d2.isDigit = true → r.status = .ELIMINADO →
        r.anoRegisto =
          some (if ((d1.toNat - '0'.toNat) * 10 + (d2.toNat - '0'.toNat) : Int) < 50
                then 2000 + ((d1.toNat - '0'.toNat) * 10 + (d2.toNat - '0'.toNat) : Int)
                else 1900 + ((d1.toNat - '0'.toNat) * 10 + (d2.toNat - '0'.toNat) : Int))) := by
  obtain ⟨proc', st', l, hr⟩ := mem_processar_linhas h
  cases hf : findId l with
  | none => rw [processar_linha_none hf] at hr; simp at hr
  | some pr =>
    obtain ⟨id0, resto0⟩ := pr
    rw [processar_linha_some hf] at hr
    simp only [Option.some_inj] at hr
    subst hr
    simp only []
    constructor
    · by_cases hst : (lineStatus l).getD (headerUpdate l st') = Status.ELIMINADO
      · rw [if_pos hst]
        simp only [hst, true_and]
        exact yearOfId_some_iff id0
      · rw [if_neg hst]
        simp only [hst, false_and]
        simp
    · intro p d1 d2 hid h1 h2 hst
      rw [if_pos hst, hid]
      exact yearOfId_decomp p d1 d2 h1 h2

/-- The record produced by the parser from the C4 witness line. -/
def rec87 : Record :=
  { idDador := "SL.X2.9/87".toList, nome := "ZE".toList,
    emailOriginal := "ze@x.pt".toList, emailCorrigido := "ze@x.pt".toList,
    emailFoiAlterado := false, status := Status.ELIMINADO, temEmail := true,
    anoRegisto := some 1987 }

/-- C4 witness: the record parsed from a line in the `ELIMINADOS`
section with identifier suffix `/87` satisfies the biconditional (its
registration year is `some 1987`). -/
theorem registration_year_iff_witness :
    rec87 ∈ (processar_linhas ⟨DOMINIOS_CONHECIDOS, []⟩ Status.INDEFINIDO
        [("ELIMINADOS".toList), ("SL.X2.9/87 ZE ze@x.pt".toList)]).2.2
    ∧ ((∃ y, rec87.anoRegisto = some y) ↔
        (rec87.status = Status.ELIMINADO ∧
         ∃ p d1 d2, rec87.idDador = p ++ ['/', d1, d2] ∧
           d1.isDigit = true ∧ d2.isDigit = true)) :=
  ⟨by decide,
   (@registration_year_iff ⟨DOMINIOS_CONHECIDOS, []⟩ Status.INDEFINIDO
      [("ELIMINADOS".toList), ("SL.X2.9/87 ZE ze@x.pt".toList)]
      rec87 (by decide)).1⟩


/-! ### Soundness and completeness of the identifier matcher -/

theorem matchIdAt_some {l : List Char} {id0 rest : List Char}
    (h : matchIdAt l = some (id0, rest)) :
    ∃ x seg ds ys,
      l = 'S' :: x :: '.' :: (seg ++ '.' :: (ds ++ '/' :: (ys ++ rest)))
      ∧ (x = 'P' ∨ x = 'C' ∨ x = 'L')
      ∧ seg ≠ [] ∧ (∀ c ∈ seg, isIdSegChar c = true)
      ∧ ds ≠ [] ∧ (∀ c ∈ ds, c.isDigit = true)
      ∧ ys ≠ [] ∧ (∀ c ∈ ys, c.isDigit = true) := by
  unfold matchIdAt at h
  split at h
  · next s x dot rest0 =>
    split at h
    · next hcond =>
      simp only [Bool.and_eq_true, Bool.or_eq_true, decide_eq_true_eq] at hcond
      obtain ⟨⟨hs, hx⟩, hdot⟩ := hcond
      subst hs; subst hdot
      split at h
      · simp at h
      · next hseg =>
        split at h
        · next d1 rest2 heq2 =>
          split at h
          · next hd1 =>
            subst hd1
            split at h
            · simp at h
            · next hds =>
              split at h
              · next sl rest3 heq3 =>
                split at h
                · next hsl =>
                  subst hsl
                  split at h
                  · simp at h
                  · next hys =>
                    simp only [Option.some_inj, Prod.mk.injEq] at h
                    obtain ⟨hid, hrest⟩ := h
                    refine ⟨x, rest0.takeWhile isIdSegChar,
                            rest2.takeWhile Char.isDigit,
                            rest3.takeWhile Char.isDigit, ?_, or_assoc.mp hx,
                            ?_, ?_, ?_, ?_, ?_, ?_⟩
                    · conv_lhs =>
                        rw [← List.takeWhile_append_dropWhile isIdSegChar rest0, heq2,
                            ← List.takeWhile_append_dropWhile Char.isDigit rest2, heq3,
                            ← List.takeWhile_append_dropWhile Char.isDigit rest3, hrest]
                    · intro hnil; rw [hnil] at hseg; simp at hseg
                    · intro c hc; exact List.mem_takeWhile_imp hc
                    · intro hnil; rw [hnil] at hds; simp at hds
                    · intro c hc; exact List.mem_takeWhile_imp hc
                    · intro hnil; rw [hnil] at hys; simp at hys
                    · intro c hc; exact List.mem_takeWhile_imp hc
                · simp at h
              · simp at h
          · simp at h
        · simp at h
    · simp at h
  · simp at h

theorem matchIdAt_complete (x : Char) (seg ds ys q : List Char)
    (hx : x = 'P' ∨ x = 'C' ∨ x = 'L')
    (hseg : seg ≠ []) (hsegc : ∀ c ∈ seg, isIdSegChar c = true)
    (hds : ds ≠ []) (hdsc : ∀ c ∈ ds, c.isDigit = true)
    (hys : ys ≠ []) (hysc : ∀ c ∈ ys, c.isDigit = true) :
    (matchIdAt ('S' :: x :: '.' ::
        (seg ++ '.' :: (ds ++ '/' :: (ys ++ q))))).isSome = true := by
  have hdot : isIdSegChar '.' = false := by decide
  have hsl : Char.isDigit '/' = false := by decide
  simp only [matchIdAt]
  rw [if_pos (by rcases hx with h|h|h <;> subst h <;> decide)]
  rw [takeWhile_append_all seg _ hsegc, dropWhile_append_all seg _ hsegc,
      takeWhile_cons_false _ hdot, dropWhile_cons_false _ hdot]
  rw [if_neg (by simp [hseg])]
  dsimp only
  rw [if_pos rfl]
  rw [takeWhile_append_all ds _ hdsc, dropWhile_append_all ds _ hdsc,
      takeWhile_cons_false _ hsl, dropWhile_cons_false _ hsl]
  rw [if_neg (by simp [hds])]
  dsimp only
  rw [if_pos rfl]
  rw [takeWhile_append_all ys _ hysc]
  rw [if_neg (by simp [hys])]
  rfl

theorem findId_app_isSome {t : List Char}
    (h : (matchIdAt t).isSome = true) :
    ∀ p, (findId (p ++ t)).isSome = true := by
  intro p
  induction p with
  | nil =>
    cases t with
    | nil => simp [matchIdAt] at h
    | cons c cs =>
      simp only [List.nil_append, findId]
      cases hm : matchIdAt (c :: cs) with
      | none => rw [hm] at h; simp at h
      | some r => simp
  | cons c cs ih =>
    simp only [List.cons_append, findId]
    cases hm : matchIdAt (c :: (cs ++ t)) with
    | none => exact ih
    | some r => simp

theorem findId_some_decomp {l : List Char} {pr : List Char × List Char}
    (h : findId l = some pr) :
    ∃ p t, l = p ++ t ∧ matchIdAt t = some pr := by
  induction l with
  | nil => simp [findId] at h
  | cons c cs ih =>
    rw [findId] at h
    cases hm : matchIdAt (c :: cs) with
    | none =>
      rw [hm] at h
      obtain ⟨p, t, hl, hmt⟩ := ih h
      exact ⟨c :: p, t, by rw [hl]; rfl, hmt⟩
    | some r =>
      rw [hm] at h
      simp only [Option.some_inj] at h
      subst h
      exact ⟨[], c :: cs, rfl, hm⟩

theorem findId_isSome_iff (l : List Char) :
    (findId l).isSome = true ↔
      ∃ p x seg ds ys q,
        l = p ++ 'S' :: x :: '.' :: (seg ++ '.' :: (ds ++ '/' :: (ys ++ q)))
        ∧ (x = 'P' ∨ x = 'C' ∨ x = 'L')
        ∧ seg ≠ [] ∧ (∀ c ∈ seg, isIdSegChar c = true)
        ∧ ds ≠ [] ∧ (∀ c ∈ ds, c.isDigit = true)
        ∧ ys ≠ [] ∧ (∀ c ∈ ys, c.isDigit = true) := by
  constructor
  · intro h
    cases hm : findId l with
    | none => rw [hm] at h; simp at h
    | some pr =>
      obtain ⟨p, t, hl, hmt⟩ := findId_some_decomp hm
      obtain ⟨x, seg, ds, ys, ht, hx, h1, h2, h3, h4, h5, h6⟩ :=
        @matchIdAt_some t pr.1 pr.2 (by rw [hmt])
      exact ⟨p, x, seg, ds, ys, pr.2, by rw [hl, ht], hx, h1, h2, h3, h4, h5, h6⟩
  · rintro ⟨p, x, seg, ds, ys, q, rfl, hx, h1, h2, h3, h4, h5, h6⟩
    exact findId_app_isSome (matchIdAt_complete x seg ds ys q hx h1 h2 h3 h4 h5 h6) p

/-- The donor-identifier pattern as the specification's words state it:
one-or-more letters, `.`, a non-empty alphanumeric segment, `.`,
one-or-more digits, `/`, exactly two digits, tried at one position.
This is a second, claim-side definition used only to compare the
specified pattern with the implemented one. -/
def claimIdAt (l : List Char) : Bool :=
  !(l.takeWhile Char.isAlpha).isEmpty &&
    match l.dropWhile Char.isAlpha with
    | d1 :: r1 =>
      d1 = '.' &&
        (!(r1.takeWhile Char.isAlphanum).isEmpty &&
          match r1.dropWhile Char.isAlphanum with
          | d2 :: r2 =>
            d2 = '.' &&
              (!(r2.takeWhile Char.isDigit).isEmpty &&
                match r2.dropWhile Char.isDigit with
                | sl :: a :: b :: _ => sl = '/' && a.isDigit && b.isDigit
                | _ => false)
          | [] => false)
    | [] => false

/-- Claim-side scan: some position of the line starts a substring
matching the specified donor-identifier pattern. -/
def containsClaimId : List Char → Bool
  | [] => false
  | c :: cs => claimIdAt (c :: cs) || containsClaimId cs

/-- C6 counterexample: on the line `SP.A1.2/2` the parser appends a
record (the implemented pattern accepts a single digit after the
slash), while the line contains no substring of the claimed shape
with letters, dot, alphanumerics, dot, digits, slash, two digits; so
the claimed equivalence is false on this input. -/
theorem record_iff_claim_pattern_cex :
    ((processar_linha ⟨DOMINIOS_CONHECIDOS, []⟩ Status.INDEFINIDO
        ("SP.A1.2/2".toList)).2.2).isSome = true
    ∧ containsClaimId ("SP.A1.2/2".toList) = false := by
  decide

/-- C6 (amended): the parser appends a record for a line if and only if
the line contains a substring of the form `S`, then one of `P`, `C`,
`L`, then a dot, then a non-empty run of uppercase alphanumerics, then
a dot, then one-or-more digits, then a slash, then one-or-more digits
(the implemented donor-identifier pattern). -/
theorem record_iff_id_pattern (proc : EmailProcessor) (st : Status)
    (l : List Char) :
    ((processar_linha proc st l).2.2).isSome = true ↔
      ∃ p x seg ds ys q,
        l = p ++ 'S' :: x :: '.' :: (seg ++ '.' :: (ds ++ '/' :: (ys ++ q)))
        ∧ (x = 'P' ∨ x = 'C' ∨ x = 'L')
        ∧ seg ≠ [] ∧ (∀ c ∈ seg, isIdSegChar c = true)
        ∧ ds ≠ [] ∧ (∀ c ∈ ds, c.isDigit = true)
        ∧ ys ≠ [] ∧ (∀ c ∈ ys, c.isDigit = true) := by
  rw [← findId_isSome_iff]
  cases hf : findId l with
  | none => rw [processar_linha_none hf]; simp [hf]
  | some pr =>
    obtain ⟨id0, resto0⟩ := pr
    rw [processar_linha_some hf]
    simp [hf]

/-! ### Substring containment and the header keywords -/

theorem comecaCom_iff : ∀ a b : List Char, comecaCom a b = true ↔ a <+: b := by
  intro a
  induction a with
  | nil => intro b; simp [comecaCom]
  | cons x xs ih =>
    intro b
    cases b with
    | nil =>
      simp [comecaCom]
    | cons y ys =>
      simp only [comecaCom, Bool.and_eq_true, decide_eq_true_eq]
      rw [ih ys]
      exact (List.cons_prefix_cons).symm

theorem contem_iff : ∀ n h : List Char, contem n h = true ↔ n <:+: h := by
  intro n h
  induction h with
  | nil =>
    simp only [contem, List.isEmpty_iff]
    constructor
    · intro hn; rw [hn]
    · intro hi; exact List.eq_nil_of_infix_nil hi
  | cons c t ih =>
    simp only [contem, Bool.or_eq_true, comecaCom_iff, ih]
    exact (List.infix_cons_iff).symm

theorem contem_trans {a b c : List Char}
    (h1 : contem a b = true) (h2 : contem b c = true) : contem a c = true := by
  rw [contem_iff] at h1 h2 ⊢
  exact h1.trans h2

/-- A line carrying one of the three section-header keywords. -/
def isHeaderLine (l : List Char) : Bool :=
  contem ("APTOS".toList) (upperL l) || contem ("SUSPENSOS".toList) (upperL l)
    || contem ("ELIMINADOS".toList) (upperL l)

/-- The section status carried into a line: the fold of the header scan
over all preceding lines of the document, from the initial
`INDEFINIDO`. -/
def statusAfter (lines : List (List Char)) : Status :=
  lines.foldl (fun st l => headerUpdate l st) Status.INDEFINIDO

theorem headerUpdate_of_lineStatus_none {l : List Char} {st : Status}
    (h : lineStatus l = none) : headerUpdate l st = st := by
  unfold lineStatus at h
  have h1 : contem ("APTO".toList) (upperL l) = false := by
    cases hc : contem ("APTO".toList) (upperL l) with
    | false => rfl
    | true => rw [if_pos hc] at h; simp at h
  rw [if_neg (by rw [h1]; exact Bool.false_ne_true)] at h
  have h2 : contem ("SUSPENSO".toList) (upperL l) = false := by
    cases hc : contem ("SUSPENSO".toList) (upperL l) with
    | false => rfl
    | true => rw [if_pos hc] at h; simp at h
  rw [if_neg (by rw [h2]; exact Bool.false_ne_true)] at h
  have h3 : contem ("ELIMINADO".toList) (upperL l) = false := by
    cases hc : contem ("ELIMINADO".toList) (upperL l) with
    | false => rfl
    | true => rw [if_pos hc] at h; simp at h
  have p1 : contem ("APTOS".toList) (upperL l) = false := by
    cases hc : contem ("APTOS".toList) (upperL l) with
    | false => rfl
    | true =>
      have := contem_trans (a := ("APTO".toList)) (by decide) hc
      rw [this] at h1
      exact absurd h1 (by simp)
  have p2 : contem ("SUSPENSOS".toList) (upperL l) = false := by
    cases hc : contem ("SUSPENSOS".toList) (upperL l) with
    | false => rfl
    | true =>
      have := contem_trans (a := ("SUSPENSO".toList)) (by decide) hc
      rw [this] at h2
      exact absurd h2 (by simp)
  have p3 : contem ("ELIMINADOS".toList) (upperL l) = false := by
    cases hc : contem ("ELIMINADOS".toList) (upperL l) with
    | false => rfl
    | true =>
      have := contem_trans (a := ("ELIMINADO".toList)) (by decide) hc
      rw [this] at h3
      exact absurd h3 (by simp)
  simp only [headerUpdate]
  rw [p1, p2, p3]
  simp

theorem headerUpdate_of_not_header {l : List Char} {st : Status}
    (h : isHeaderLine l = false) : headerUpdate l st = st := by
  unfold isHeaderLine at h
  simp only [Bool.or_eq_false_iff] at h
  obtain ⟨⟨p1, p2⟩, p3⟩ := h
  simp only [headerUpdate]
  rw [p1, p2, p3]
  simp

theorem headerUpdate_of_header {l : List Char}
    (h : isHeaderLine l = true) (st st' : Status) :
    headerUpdate l st = headerUpdate l st' := by
  unfold isHeaderLine at h
  cases hc1 : contem ("APTOS".toList) (upperL l) with
  | true => simp only [headerUpdate]; rw [hc1]; simp
  | false =>
    cases hc2 : contem ("SUSPENSOS".toList) (upperL l) with
    | true => simp only [headerUpdate]; rw [hc1, hc2]; simp
    | false =>
      cases hc3 : contem ("ELIMINADOS".toList) (upperL l) with
      | true => simp only [headerUpdate]; rw [hc1, hc2, hc3]; simp
      | false =>
        rw [hc1, hc2, hc3] at h
        simp at h

theorem foldl_headerUpdate_no_header :
    ∀ (lines : List (List Char)) (st : Status),
      (∀ l ∈ lines, isHeaderLine l = false) →
      lines.foldl (fun a l => headerUpdate l a) st = st := by
  intro lines
  induction lines with
  | nil => intro st _; rfl
  | cons l ls ih =>
    intro st h
    rw [List.foldl_cons, headerUpdate_of_not_header (h l (by simp))]
    exact ih st (fun x hx => h x (by simp [hx]))

/-! ### The parser state across lines and pages -/

theorem processar_linha_fst (proc : EmailProcessor) (st : Status)
    (l : List Char) : (processar_linha proc st l).1 = headerUpdate l st := by
  cases hf : findId l with
  | none => rw [processar_linha_none hf]
  | some pr =>
    obtain ⟨id0, resto0⟩ := pr
    rw [processar_linha_some hf]

theorem processar_linhas_fst :
    ∀ (lines : List (List Char)) (proc : EmailProcessor) (st : Status),
      (processar_linhas proc st lines).1 =
        lines.foldl (fun a l => headerUpdate l a) st := by
  intro lines
  induction lines with
  | nil => intro proc st; rfl
  | cons l ls ih =>
    intro proc st
    simp only [processar_linhas, List.foldl_cons]
    rw [ih, processar_linha_fst]

theorem processar_linhas_append :
    ∀ (ls1 ls2 : List (List Char)) (proc : EmailProcessor) (st : Status),
      processar_linhas proc st (ls1 ++ ls2) =
        ((processar_linhas (processar_linhas proc st ls1).2.1
            (processar_linhas proc st ls1).1 ls2).1,
         (processar_linhas (processar_linhas proc st ls1).2.1
            (processar_linhas proc st ls1).1 ls2).2.1,
         (processar_linhas proc st ls1).2.2 ++
           (processar_linhas (processar_linhas proc st ls1).2.1
              (processar_linhas proc st ls1).1 ls2).2.2) := by
  intro ls1
  induction ls1 with
  | nil => intro ls2 proc st; simp [processar_linhas]
  | cons l ls ih =>
    intro ls2 proc st
    simp only [List.cons_append, processar_linhas, List.append_eq]
    rw [ih]
    simp [List.append_assoc]

/-- The lines contributed by one page: none for a `None` or empty text,
otherwise the newline split of the text. -/
def pageLines : Option (List Char) → List (List Char)
  | none => []
  | some t => if t = [] then [] else splitLines t

/-- All lines of the document in reading order (page order, then line
order). -/
def joinPages (pages : List (Option (List Char))) : List (List Char) :=
  (pages.map pageLines).flatten

theorem extrairGo_ok :
    ∀ (pages : List (Option (List Char))) (proc : EmailProcessor)
      (st : Status) (acc : List Record),
      extrairGo proc st acc (pages.map Except.ok) =
        .ok (acc ++ (processar_linhas proc st (joinPages pages)).2.2,
             (processar_linhas proc st (joinPages pages)).2.1) := by
  intro pages
  induction pages with
  | nil =>
    intro proc st acc
    simp [extrairGo, joinPages, processar_linhas]
  | cons p ps ih =>
    intro proc st acc
    cases p with
    | none =>
      simp only [List.map_cons, extrairGo]
      rw [ih]
      simp [joinPages, pageLines]
    | some t =>
      by_cases ht : t = []
      · subst ht
        simp only [List.map_cons, extrairGo, if_pos rfl]
        rw [ih]
        simp [joinPages, pageLines]
      · simp only [List.map_cons, extrairGo, if_neg ht]
        rw [ih]
        have hjl : joinPages (some t :: ps) = splitLines t ++ joinPages ps := by
          simp [joinPages, pageLines, if_neg ht]
        rw [hjl, processar_linhas_append]
        simp [List.append_assoc]

/-- C3: the parser's status state is initialised to `INDEFINIDO` once
per document and threaded across lines and pages — running the page loop
equals running the line loop once over the concatenation of all pages'
lines; a line's record receives the line-local keyword status (scanned
in the priority order `APTO`, `SUSPENSO`, `ELIMINADO`, first match
winning) when one is present and otherwise the carried section status;
the carried state after any line prefix is the fold of the header scan,
which equals the status of the most recent header-keyword line
(independently of the earlier state) and `INDEFINIDO` when no header
line precedes. -/
theorem section_state_machine :
    (∀ (proc : EmailProcessor) (pages : List (Option (List Char))),
        extrair_emails_pdf proc (pages.map Except.ok) =
          .ok ((processar_linhas proc Status.INDEFINIDO (joinPages pages)).2.2,
               (processar_linhas proc Status.INDEFINIDO (joinPages pages)).2.1))
    ∧ (∀ (proc : EmailProcessor) (st : Status) (l : List Char) (r : Record),
        (processar_linha proc st l).2.2 = some r →
          r.status = (lineStatus l).getD st)
    ∧ (∀ (proc : EmailProcessor) (st : Status) (lines : List (List Char)),
        (processar_linhas proc st lines).1 =
          lines.foldl (fun a l => headerUpdate l a) st)
    ∧ (∀ pre : List (List Char), (∀ l ∈ pre, isHeaderLine l = false) →
        statusAfter pre = Status.INDEFINIDO)
    ∧ (∀ (xs : List (List Char)) (h : List Char) (ys : List (List Char)),
        isHeaderLine h = true → (∀ l ∈ ys, isHeaderLine l = false) →
        statusAfter (xs ++ h :: ys) = headerUpdate h Status.INDEFINIDO) := by
  refine ⟨?_, ?_, ?_, ?_, ?_⟩
  · intro proc pages
    unfold extrair_emails_pdf
    rw [extrairGo_ok]
    simp
  · intro proc st l r hr
    cases hf : findId l with
    | none => rw [processar_linha_none hf] at hr; simp at hr
    | some pr =>
      obtain ⟨id0, resto0⟩ := pr
      rw [processar_linha_some hf] at hr
      simp only [Option.some_inj] at hr
      subst hr
      cases hls : lineStatus l with
      | some s => simp [hls]
      | none => simp [hls, headerUpdate_of_lineStatus_none hls]
  · intro proc st lines
    exact processar_linhas_fst lines proc st
  · intro pre h
    exact foldl_headerUpdate_no_header pre Status.INDEFINIDO h
  · intro xs h ys hh hys
    unfold statusAfter
    rw [List.foldl_append, List.foldl_cons]
    rw [foldl_headerUpdate_no_header ys _ hys]
    exact headerUpdate_of_header hh _ _

/-- The record produced by the parser from the C3 witness line. -/
def recApto : Record :=
  { idDador := "SP.A1.2/21".toList, nome := "APTO".toList,
    emailOriginal := [], emailCorrigido := [],
    emailFoiAlterado := false, status := Status.APTO, temEmail := false,
    anoRegisto := none }

/-- C3 witness: a line inside a `SUSPENSO` section carrying the
line-local keyword `APTO` yields an `APTO` record; a header-free prefix
leaves the state `INDEFINIDO`; and after a header line the state is that
header's status regardless of what preceded. -/
theorem section_state_machine_witness :
    ((processar_linha ⟨DOMINIOS_CONHECIDOS, []⟩ Status.SUSPENSO
        ("SP.A1.2/21 APTO".toList)).2.2 = some recApto
      ∧ recApto.status = (lineStatus ("SP.A1.2/21 APTO".toList)).getD Status.SUSPENSO)
    ∧ ((∀ l ∈ [("ola".toList)], isHeaderLine l = false)
      ∧ statusAfter [("ola".toList)] = Status.INDEFINIDO)
    ∧ (isHeaderLine ("LISTA DE ELIMINADOS".toList) = true
      ∧ (∀ l ∈ [("ola".toList)], isHeaderLine l = false)
      ∧ statusAfter [("LISTA DE ELIMINADOS".toList), ("ola".toList)]
          = headerUpdate ("LISTA DE ELIMINADOS".toList) Status.INDEFINIDO) :=
  ⟨⟨by decide,
    section_state_machine.2.1 ⟨DOMINIOS_CONHECIDOS, []⟩ Status.SUSPENSO
      ("SP.A1.2/21 APTO".toList) recApto (by decide)⟩,
   ⟨by decide, section_state_machine.2.2.2.1 [("ola".toList)] (by decide)⟩,
   ⟨by decide, by decide,
    section_state_machine.2.2.2.2 [] ("LISTA DE ELIMINADOS".toList)
      [("ola".toList)] (by decide) (by decide)⟩⟩

/-! ### Soundness and completeness of the email matcher -/

theorem tld_imp_domain {c : Char} (h : isTldChar c = true) :
    isDomainChar c = true := by
  simp only [isTldChar, Bool.or_eq_true] at h
  rcases h with h | h <;> simp [isDomainChar, isWordChar, h]

theorem splitDomRev_sound :
    ∀ (rem acc D Tp : List Char),
      splitDomRev acc rem = some (D, Tp) →
      ∃ ex, rem.reverse ++ acc = D ++ '.' :: (Tp ++ ex) ∧ D ≠ [] ∧ Tp ≠ [] ∧
        (∀ c ∈ Tp, isTldChar c = true) := by
  intro rem
  induction rem with
  | nil => intro acc D Tp h; simp [splitDomRev] at h
  | cons c rest ih =>
    intro acc D Tp h
    unfold splitDomRev at h
    split at h
    · next hcond =>
      simp only [Bool.and_eq_true, Bool.not_eq_true', decide_eq_true_eq] at hcond
      obtain ⟨⟨hc, hhead⟩, hne⟩ := hcond
      subst hc
      simp only [Option.some_inj, Prod.mk.injEq] at h
      obtain ⟨hD, hTp⟩ := h
      subst hD
      subst hTp
      obtain ⟨t, acc2, hacc⟩ : ∃ t acc2, acc = t :: acc2 := by
        cases hs : acc with
        | nil => rw [hs] at hhead; simp [headIsTld] at hhead
        | cons t acc2 => exact ⟨t, acc2, rfl⟩
      have ht : isTldChar t = true := by
        rw [hacc] at hhead; simpa [headIsTld] using hhead
      refine ⟨acc.dropWhile isTldChar, ?_, ?_, ?_, ?_⟩
      · rw [List.reverse_cons, List.append_assoc]
        simp only [List.singleton_append]
        rw [List.takeWhile_append_dropWhile]
      · intro hnil
        rw [List.reverse_eq_nil_iff] at hnil
        rw [hnil] at hne
        simp at hne
      · rw [hacc]
        simp [List.takeWhile_cons, ht]
      · intro x hx; exact List.mem_takeWhile_imp hx
    · obtain ⟨ex, he, h1, h2, h3⟩ := ih _ _ _ h
      refine ⟨ex, ?_, h1, h2, h3⟩
      rw [← he]
      simp

theorem splitDomRev_complete :
    ∀ (b acc a : List Char) (t : Char) (tr : List Char),
      a ≠ [] → b.reverse ++ acc = t :: tr → isTldChar t = true →
      (splitDomRev acc (b ++ '.' :: a)).isSome = true := by
  intro b
  induction b with
  | nil =>
    intro acc a t tr ha hacc ht
    simp only [List.reverse_nil, List.nil_append] at hacc
    subst hacc
    simp only [List.nil_append]
    unfold splitDomRev
    rw [if_pos (by
      simp only [Bool.and_eq_true, Bool.not_eq_true', decide_eq_true_eq]
      refine ⟨⟨trivial, by simp [headIsTld, ht]⟩, by simpa using ha⟩)]
    rfl
  | cons x xs ih =>
    intro acc a t tr ha hacc ht
    have hacc2 : xs.reverse ++ (x :: acc) = t :: tr := by
      rw [← hacc]
      simp
    have hrec := ih (x :: acc) a t tr ha hacc2 ht
    simp only [List.cons_append]
    unfold splitDomRev
    split
    · simp
    · exact hrec

theorem domainMatch_some {rest dm : List Char}
    (h : domainMatch rest = some dm) :
    ∃ D Tp ex, dm = D ++ '.' :: Tp ∧ rest = D ++ '.' :: (Tp ++ ex)
      ∧ D ≠ [] ∧ (∀ c ∈ D, isDomainChar c = true)
      ∧ Tp ≠ [] ∧ (∀ c ∈ Tp, isTldChar c = true) := by
  unfold domainMatch at h
  cases hs : splitDomRev [] (rest.takeWhile isDomainChar).reverse with
  | none => rw [hs] at h; simp at h
  | some pr =>
    obtain ⟨D, Tp⟩ := pr
    rw [hs] at h
    simp only [Option.map_some', Option.some_inj] at h
    obtain ⟨ex0, he, hD, hTp, hTc⟩ := splitDomRev_sound _ _ _ _ hs
    simp only [List.reverse_reverse, List.append_nil] at he
    refine ⟨D, Tp, ex0 ++ rest.dropWhile isDomainChar, ?_, ?_, hD, ?_, hTp, hTc⟩
    · rw [← h]
    · conv_lhs => rw [← List.takeWhile_append_dropWhile isDomainChar rest, he]
      simp [List.append_assoc]
    · intro c hc
      have hcR : c ∈ rest.takeWhile isDomainChar := by
        rw [he]
        exact List.mem_append.mpr (Or.inl hc)
      exact List.mem_takeWhile_imp hcR

theorem domainMatch_complete (dp : List Char) (t : Char) (rest2 : List Char)
    (hdp : dp ≠ []) (hall : ∀ c ∈ dp, isDomainChar c = true)
    (ht : isTldChar t = true) :
    (domainMatch (dp ++ '.' :: t :: rest2)).isSome = true := by
  unfold domainMatch
  have hdot : isDomainChar '.' = true := by decide
  have hR : (dp ++ '.' :: t :: rest2).takeWhile isDomainChar
      = dp ++ '.' :: t :: rest2.takeWhile isDomainChar := by
    rw [takeWhile_append_all dp _ hall]
    simp [List.takeWhile_cons, hdot, tld_imp_domain ht]
  rw [hR]
  have hd2 : dp.reverse ≠ [] := by
    intro hc
    exact hdp (by simpa using hc)
  have hrev : (dp ++ '.' :: t :: rest2.takeWhile isDomainChar).reverse
      = ((rest2.takeWhile isDomainChar).reverse ++ [t]) ++ '.' :: dp.reverse := by
    simp
  rw [hrev]
  have hs := splitDomRev_complete ((rest2.takeWhile isDomainChar).reverse ++ [t])
    [] dp.reverse t (rest2.takeWhile isDomainChar) hd2 (by simp) ht
  cases hsd : splitDomRev []
      (((rest2.takeWhile isDomainChar).reverse ++ [t]) ++ '.' :: dp.reverse) with
  | none => rw [hsd] at hs; simp at hs
  | some pr => simp

/-- The email-shaped substrings of the pattern
with a non-empty local-part run, an at-sign, a non-empty domain run, a
dot and a non-empty TLD run. -/
def emailShaped (m : List Char) : Prop :=
  ∃ lp dp tp, m = lp ++ '@' :: (dp ++ '.' :: tp)
    ∧ lp ≠ [] ∧ (∀ c ∈ lp, isDomainChar c = true)
    ∧ dp ≠ [] ∧ (∀ c ∈ dp, isDomainChar c = true)
    ∧ tp ≠ [] ∧ (∀ c ∈ tp, isTldChar c = true)

theorem tryEmailAt_some {l m : List Char} (h : tryEmailAt l = some m) :
    (∃ rest, l = m ++ rest) ∧ emailShaped m := by
  unfold tryEmailAt at h
  split at h
  · simp at h
  · next hne =>
    split at h
    · next a rest heq =>
      split at h
      · next ha =>
        subst ha
        cases hd : domainMatch rest with
        | none => rw [hd] at h; simp at h
        | some dm =>
          rw [hd] at h
          simp only [Option.map_some', Option.some_inj] at h
          obtain ⟨D, Tp, ex, hdm, hrest, hD, hDc, hTp, hTc⟩ := domainMatch_some hd
          constructor
          · refine ⟨ex, ?_⟩
            conv_lhs => rw [← List.takeWhile_append_dropWhile isDomainChar l, heq]
            rw [← h, hdm, hrest]
            simp [List.append_assoc]
          · refine ⟨l.takeWhile isDomainChar, D, Tp, ?_, ?_, ?_, hD, hDc, hTp, hTc⟩
            · rw [← h, hdm]
            · intro hc; rw [hc] at hne; simp at hne
            · intro c hc; exact List.mem_takeWhile_imp hc
      · simp at h
    · simp at h

theorem tryEmailAt_complete {m post l : List Char}
    (hl : l = m ++ post) (hm : emailShaped m) :
    (tryEmailAt l).isSome = true := by
  obtain ⟨lp, dp, tp, hsplit, hlp, hlpc, hdp, hdpc, htp, htpc⟩ := hm
  obtain ⟨t, tr, htc⟩ : ∃ t tr, tp = t :: tr := by
    cases hs : tp with
    | nil => exact absurd hs htp
    | cons t tr => exact ⟨t, tr, rfl⟩
  subst htc
  subst hsplit
  subst hl
  have hat : isDomainChar '@' = false := by decide
  have hl2 : (lp ++ '@' :: (dp ++ '.' :: t :: tr)) ++ post
      = lp ++ '@' :: (dp ++ '.' :: t :: (tr ++ post)) := by
    simp [List.append_assoc]
  rw [hl2]
  unfold tryEmailAt
  rw [takeWhile_append_all lp _ hlpc, dropWhile_append_all lp _ hlpc,
      takeWhile_cons_false _ hat, dropWhile_cons_false _ hat]
  rw [if_neg (by simp [hlp])]
  dsimp only
  rw [if_pos rfl]
  have ht : isTldChar t = true := htpc t (by simp)
  have hdm := domainMatch_complete dp t (tr ++ post) hdp hdpc ht
  cases hdd : domainMatch (dp ++ '.' :: t :: (tr ++ post)) with
  | none => rw [hdd] at hdm; simp at hdm
  | some dm => simp

theorem findEmail_app_isSome {t : List Char}
    (h : (tryEmailAt t).isSome = true) :
    ∀ p, (findEmail (p ++ t)).isSome = true := by
  intro p
  induction p with
  | nil =>
    cases t with
    | nil => simp [tryEmailAt] at h
    | cons c cs =>
      simp only [List.nil_append, findEmail]
      cases hm : tryEmailAt (c :: cs) with
      | none => rw [hm] at h; simp at h
      | some r => simp
  | cons c cs ih =>
    simp only [List.cons_append, findEmail]
    cases hm : tryEmailAt (c :: (cs ++ t)) with
    | none => exact ih
    | some r => simp

theorem findEmail_some {l m : List Char} (h : findEmail l = some m) :
    emailShaped m ∧ ∃ pre post, l = pre ++ m ++ post ∧
      (∀ pre2 m2 post2, l = pre2 ++ m2 ++ post2 → emailShaped m2 →
        pre.length ≤ pre2.length) := by
  induction l with
  | nil => simp [findEmail] at h
  | cons c cs ih =>
    rw [findEmail] at h
    cases ht : tryEmailAt (c :: cs) with
    | some m0 =>
      rw [ht] at h
      simp only [Option.some_inj] at h
      subst h
      obtain ⟨⟨rest, hdecomp⟩, hsh⟩ := tryEmailAt_some ht
      exact ⟨hsh, [], rest, by simpa using hdecomp,
             fun pre2 m2 post2 _ _ => Nat.zero_le _⟩
    | none =>
      rw [ht] at h
      obtain ⟨hsh, pre, post, hdec, hmin⟩ := ih h
      refine ⟨hsh, c :: pre, post, by rw [hdec]; simp, ?_⟩
      intro pre2 m2 post2 hl2 hsh2
      cases pre2 with
      | nil =>
        exfalso
        have hcomp := @tryEmailAt_complete m2 post2 (c :: cs)
          (by simpa using hl2) hsh2
        rw [ht] at hcomp
        simp at hcomp
      | cons c2 pre2t =>
        have hcs : cs = pre2t ++ m2 ++ post2 := by
          have := hl2
          simp only [List.cons_append] at this
          exact (List.cons_eq_cons.mp this).2
        have := hmin pre2t m2 post2 hcs hsh2
        simpa using Nat.succ_le_succ this

theorem findEmail_none_iff (l : List Char) :
    findEmail l = none ↔
      ¬ ∃ pre m post, l = pre ++ m ++ post ∧ emailShaped m := by
  constructor
  · intro h hex
    obtain ⟨pre, m, post, hl, hm⟩ := hex
    have hsome := findEmail_app_isSome
      (tryEmailAt_complete (rfl : m ++ post = m ++ post) hm) pre
    rw [← List.append_assoc, ← hl] at hsome
    rw [h] at hsome
    simp at hsome
  · intro h
    cases hf : findEmail l with
    | none => rfl
    | some m =>
      obtain ⟨hsh, pre, post, hdec, _⟩ := findEmail_some hf
      exact absurd ⟨pre, m, post, hdec, hsh⟩ h

/-- C8 counterexample: on the line `a@b.cc SP.A1.23/45` the email-shaped
match lies entirely before the identifier, and nothing at all follows
the identifier match (the remainder after the match is empty), yet the
parser records `a@b.cc` as the original email rather than the empty
string the claim requires. -/
theorem email_after_id_cex :
    ((processar_linha ⟨DOMINIOS_CONHECIDOS, []⟩ Status.INDEFINIDO
        ("a@b.cc SP.A1.23/45".toList)).2.2).map (fun r => r.emailOriginal)
      = some ("a@b.cc".toList)
    ∧ (findId ("a@b.cc SP.A1.23/45".toList)).map (fun pr => pr.2) = some []
    ∧ ("a@b.cc".toList) ≠ ([] : List Char) := by
  decide

/-- C8 (amended): for every line that yields a record, `email_original`
is the leftmost match of the email pattern over the whole line (not just
the part after the identifier), and the empty string when the line has
no email-shaped substring: the parser stores `findEmail` of the line,
`findEmail` fails exactly on lines without an email-shaped substring,
and a successful match is an email-shaped substring occurring at the
least possible start position. -/
theorem email_original_leftmost {proc : EmailProcessor} {st : Status}
    {l : List Char} {r : Record}
    (h : (processar_linha proc st l).2.2 = some r) :
    r.emailOriginal = (findEmail l).getD []
    ∧ (findEmail l = none ↔
        ¬ ∃ pre m post, l = pre ++ m ++ post ∧ emailShaped m)
    ∧ (∀ m, findEmail l = some m → emailShaped m ∧
        ∃ pre post, l = pre ++ m ++ post ∧
          ∀ pre2 m2 post2, l = pre2 ++ m2 ++ post2 → emailShaped m2 →
            pre.length ≤ pre2.length) := by
  refine ⟨?_, findEmail_none_iff l,
    fun m hm => ⟨(findEmail_some hm).1, (findEmail_some hm).2⟩⟩
  cases hf : findId l with
  | none => rw [processar_linha_none hf] at h; simp at h
  | some pr =>
    obtain ⟨id0, resto0⟩ := pr
    rw [processar_linha_some hf] at h
    simp only [Option.some_inj] at h
    subst h
    rfl

/-- The record produced by the parser from the C8 witness line. -/
def rec8 : Record :=
  { idDador := "SP.A1.2/21".toList, nome := [],
    emailOriginal := "a@b.cc".toList, emailCorrigido := "a@b.cc".toList,
    emailFoiAlterado := false, status := Status.INDEFINIDO, temEmail := true,
    anoRegisto := none }

/-- C8 (amended) witness: on a line whose email follows the identifier,
the stored original email equals the leftmost line-wide match. -/
theorem email_original_leftmost_witness :
    (processar_linha ⟨DOMINIOS_CONHECIDOS, []⟩ Status.INDEFINIDO
        ("SP.A1.2/21 a@b.cc".toList)).2.2 = some rec8
    ∧ rec8.emailOriginal = (findEmail ("SP.A1.2/21 a@b.cc".toList)).getD [] :=
  ⟨by decide,
   (@email_original_leftmost ⟨DOMINIOS_CONHECIDOS, []⟩ Status.INDEFINIDO
      ("SP.A1.2/21 a@b.cc".toList) rec8 (by decide)).1⟩

/-! ### Error handling of the extraction pipeline -/

theorem extrairGo_error :
    ∀ (pre : List PageResult) (e : List Char) (post : List PageResult)
      (proc : EmailProcessor) (st : Status) (acc : List Record),
      (∀ p ∈ pre, ∃ t, p = Except.ok t) →
      extrairGo proc st acc (pre ++ .error e :: post)
        = .error (("Erro ao processar PDF: ".toList) ++ e) := by
  intro pre
  induction pre with
  | nil => intro e post proc st acc _; rfl
  | cons p ps ih =>
    intro e post proc st acc hok
    obtain ⟨t, hp⟩ := hok p (by simp)
    subst hp
    have hrest : ∀ q ∈ ps, ∃ t, q = Except.ok t := fun q hq => hok q (by simp [hq])
    cases t with
    | none => simp only [List.cons_append, extrairGo]; exact ih e post proc st acc hrest
    | some tx =>
      by_cases htx : tx = []
      · subst htx
        simp only [List.cons_append, extrairGo, if_pos rfl]
        exact ih e post proc st acc hrest
      · simp only [List.cons_append, extrairGo, if_neg htx]
        exact ih e post _ _ _ hrest

/-- C7: a page whose text extraction raises aborts the whole run with
one wrapped fatal error carrying the cause; a run that completes with
zero records makes the driver fail with the fatal "no data" error and
produce no report; and the corrector and validator never fail, always
returning the best-effort fallbacks — the empty string with
`changed = false` for a non-string or blank input, and `false` for a
non-string input. -/
theorem error_handling :
    (∀ (proc : EmailProcessor) (pre : List PageResult) (e : List Char)
        (post : List PageResult),
      (∀ p ∈ pre, ∃ t, p = Except.ok t) →
      extrair_emails_pdf proc (pre ++ .error e :: post)
        = .error (("Erro ao processar PDF: ".toList) ++ e))
    ∧ (∀ (nowYear : Int) (nowStr : List Char) (pages : List PageResult)
        (proc2 : EmailProcessor),
      extrair_emails_pdf ⟨DOMINIOS_CONHECIDOS, []⟩ pages = .ok ([], proc2) →
      processar_pdf_para_emails nowYear nowStr pages =
        .error (("Nenhum dado extraído do PDF. Verifique se o formato está correto.".toList)))
    ∧ (∀ proc : EmailProcessor, correct_email proc none = (([], false), proc))
    ∧ (∀ (proc : EmailProcessor) (s : List Char), trim s = [] →
        correct_email proc (some s) = (([], false), proc))
    ∧ (validate_email none = false) := by
  refine ⟨?_, ?_, ?_, ?_, rfl⟩
  · intro proc pre e post hok
    exact extrairGo_error pre e post proc Status.INDEFINIDO [] hok
  · intro nowYear nowStr pages proc2 hx
    unfold processar_pdf_para_emails
    rw [hx]
    simp
  · intro proc; rfl
  · intro proc s hs
    simp only [correct_email, if_pos hs]

/-- C7 witness: a concrete raising second page aborts with the wrapped
message; an empty page list yields the fatal "no data" error; and a
blank string is corrected to the empty-string fallback. -/
theorem error_handling_witness :
    ((∀ p ∈ ([Except.ok (some ("ola".toList))] : List PageResult),
        ∃ t, p = Except.ok t)
      ∧ extrair_emails_pdf ⟨DOMINIOS_CONHECIDOS, []⟩
          (([Except.ok (some ("ola".toList))] : List PageResult)
            ++ .error ("boom".toList) :: [])
        = .error (("Erro ao processar PDF: ".toList) ++ ("boom".toList)))
    ∧ (extrair_emails_pdf ⟨DOMINIOS_CONHECIDOS, []⟩ [] =
        .ok ([], ⟨DOMINIOS_CONHECIDOS, []⟩)
      ∧ processar_pdf_para_emails 2025 ("hoje".toList) [] =
        .error (("Nenhum dado extraído do PDF. Verifique se o formato está correto.".toList)))
    ∧ (trim ("  ".toList) = []
      ∧ correct_email ⟨DOMINIOS_CONHECIDOS, []⟩ (some ("  ".toList))
          = (([], false), ⟨DOMINIOS_CONHECIDOS, []⟩)) :=
  ⟨⟨fun p hp => ⟨some ("ola".toList), by rw [List.mem_singleton] at hp; exact hp⟩,
    error_handling.1 ⟨DOMINIOS_CONHECIDOS, []⟩ [Except.ok (some ("ola".toList))]
      ("boom".toList) []
      (fun p hp => ⟨some ("ola".toList), by rw [List.mem_singleton] at hp; exact hp⟩)⟩,
   ⟨rfl,
    error_handling.2.1 2025 ("hoje".toList) [] ⟨DOMINIOS_CONHECIDOS, []⟩ rfl⟩,
   ⟨by decide,
    error_handling.2.2.2.1 ⟨DOMINIOS_CONHECIDOS, []⟩ ("  ".toList) (by decide)⟩⟩

/-! ### The report builder: cutoff, filters and deduplication -/

theorem foldl_max_spec :
    ∀ (xs : List Int) (x : Int),
      (xs.foldl max x = x ∨ xs.foldl max x ∈ xs) ∧
      x ≤ xs.foldl max x ∧ ∀ z ∈ xs, z ≤ xs.foldl max x := by
  intro xs
  induction xs with
  | nil => intro x; exact ⟨Or.inl rfl, le_refl x, by simp⟩
  | cons y ys ih =>
    intro x
    obtain ⟨hmem, hle, hub⟩ := ih (max x y)
    refine ⟨?_, ?_, ?_⟩
    · rcases hmem with hm | hm
      · rcases max_choice x y with hc | hc
        · left; rw [List.foldl_cons, hm, hc]
        · right; rw [List.foldl_cons, hm, hc]; simp
      · right; rw [List.foldl_cons]; simp [hm]
    · exact le_trans (le_max_left x y) hle
    · intro z hz
      rcases List.mem_cons.mp hz with hb | hb
      · subst hb
        exact le_trans (le_max_right x z) hle
      · exact hub z hb

theorem maxOf_spec {l : List Int} {m : Int} (h : maxOf l = some m) :
    m ∈ l ∧ ∀ x ∈ l, x ≤ m := by
  cases l with
  | nil => simp [maxOf] at h
  | cons x xs =>
    simp only [maxOf, Option.some_inj] at h
    subst h
    obtain ⟨hmem, hle, hub⟩ := foldl_max_spec xs x
    refine ⟨?_, ?_⟩
    · rcases hmem with hm | hm
      · rw [hm]; simp
      · simp [hm]
    · intro z hz
      rcases List.mem_cons.mp hz with hb | hb
      · subst hb; exact hle
      · exact hub z hb

theorem mem_anosRegisto {df : List Record} {y : Int} :
    y ∈ anosRegisto df ↔ ∃ r ∈ df, r.anoRegisto = some y := by
  unfold anosRegisto
  rw [List.mem_filterMap]

theorem anoAtualBase_max {nowYear : Int} {df : List Record}
    (h : ∃ r ∈ df, ∃ y, r.anoRegisto = some y ∧ 2000 < y) :
    (∃ r ∈ df, r.anoRegisto = some (anoAtualBase nowYear df)) ∧
    ∀ r ∈ df, ∀ y, r.anoRegisto = some y → y ≤ anoAtualBase nowYear df := by
  obtain ⟨r0, hr0, y0, hy0, hy2000⟩ := h
  have hy0m : y0 ∈ anosRegisto df := mem_anosRegisto.mpr ⟨r0, hr0, hy0⟩
  cases hm : maxOf (anosRegisto df) with
  | none =>
    exfalso
    cases hl : anosRegisto df with
    | nil => rw [hl] at hy0m; simp at hy0m
    | cons a as => rw [hl] at hm; simp [maxOf] at hm
  | some m =>
    obtain ⟨hmem, hub⟩ := maxOf_spec hm
    have hm2000 : 2000 < m := lt_of_lt_of_le hy2000 (hub y0 hy0m)
    have hbase : anoAtualBase nowYear df = m := by
      unfold anoAtualBase
      rw [hm]
      dsimp only
      rw [if_pos hm2000]
    rw [hbase]
    constructor
    · exact mem_anosRegisto.mp hmem
    · intro r hr y hy
      exact hub y (mem_anosRegisto.mpr ⟨r, hr, hy⟩)

theorem anoAtualBase_now {nowYear : Int} {df : List Record}
    (h : ¬ ∃ r ∈ df, ∃ y, r.anoRegisto = some y ∧ 2000 < y) :
    anoAtualBase nowYear df = nowYear := by
  unfold anoAtualBase
  cases hm : maxOf (anosRegisto df) with
  | none => rfl
  | some m =>
    obtain ⟨hmem, _⟩ := maxOf_spec hm
    obtain ⟨r, hr, hry⟩ := mem_anosRegisto.mp hmem
    dsimp only
    rw [if_neg ?hneg]
    case hneg =>
      intro hgt
      exact h ⟨r, hr, m, hry, hgt⟩

theorem mem_dedupFirst :
    ∀ (l seen : List (List Char)) (x : List Char),
      x ∈ dedupFirst seen l ↔ (x ∈ l ∧ x ∉ seen) := by
  intro l
  induction l with
  | nil => intro seen x; simp [dedupFirst]
  | cons a as ih =>
    intro seen x
    unfold dedupFirst
    by_cases ha : a ∈ seen
    · rw [if_pos ha, ih]
      constructor
      · rintro ⟨h1, h2⟩
        exact ⟨by simp [h1], h2⟩
      · rintro ⟨h1, h2⟩
        rcases List.mem_cons.mp h1 with hb | hb
        · subst hb; exact absurd ha h2
        · exact ⟨hb, h2⟩
    · rw [if_neg ha]
      by_cases hxa : x = a
      · subst hxa
        simp [ha]
      · constructor
        · intro hmem
          rcases List.mem_cons.mp hmem with hb | hb
          · exact absurd hb hxa
          · obtain ⟨h1, h2⟩ := (ih (a :: seen) x).mp hb
            refine ⟨by simp [h1], fun hc => h2 (by simp [hc])⟩
        · rintro ⟨h1, h2⟩
          rcases List.mem_cons.mp h1 with hb | hb
          · exact absurd hb hxa
          · refine List.mem_cons.mpr (Or.inr ?_)
            refine (ih (a :: seen) x).mpr ⟨hb, ?_⟩
            intro hc
            rcases List.mem_cons.mp hc with hd | hd
            · exact hxa hd
            · exact h2 hd

/-- The claim-side selection predicate for one status section: matching
status, valid email and — for `ELIMINADO` only — a present registration
year at or above the cutoff. -/
def claimSelect (corte : Int) (st : Status) (r : Record) : Bool :=
  decide (r.status = st) && r.temEmail &&
    (if st = .ELIMINADO then anoOk corte r else true)

theorem emailsStatus_eq_claim (df : List Record) (corte : Int) (st : Status) :
    emailsStatus df corte st =
      dedupFirst [] ((df.filter (claimSelect corte st)).map
        (fun r => r.emailCorrigido)) := by
  unfold emailsStatus
  by_cases hst : st = Status.ELIMINADO
  · rw [if_pos hst]
    rw [filter_filter_and, filter_filter_and]
    congr 1
    apply congrArg
    apply List.filter_congr
    intro r _
    subst hst
    unfold claimSelect
    rw [if_pos rfl]
    cases decide (r.status = Status.ELIMINADO) <;>
      cases hok : anoOk corte r <;>
      cases ht : r.temEmail <;> simp
  · rw [if_neg hst]
    rw [filter_filter_and]
    congr 1
    apply congrArg
    apply List.filter_congr
    intro r _
    unfold claimSelect
    rw [if_neg hst]
    cases decide (r.status = st) <;> cases ht : r.temEmail <;> simp

/-- C5: in the generated report, each status section (statuses in the
fixed order `APTO`, `SUSPENSO`, `ELIMINADO`) lists exactly the corrected
emails of the records with that status and a valid email — additionally,
for `ELIMINADO`, a present registration year at or above the cutoff —
deduplicated keeping first occurrences and joined with `"; "`, with a
placeholder line when the list is empty; the cutoff is basis − 3 where
the basis is the current calendar year unless some record's registration
year exceeds 2000, in which case the basis is the maximum registration
year observed; a record whose registration year equals the cutoff is
kept.  (A literally empty table is excluded: on it the Python code
raises a `KeyError` before building any section, and the driver never
passes one.) -/
theorem report_sections (nowYear : Int) (df : List Record) (_hdf : df ≠ []) :
    ((∃ r ∈ df, ∃ y, r.anoRegisto = some y ∧ 2000 < y) →
        (∃ r ∈ df, r.anoRegisto = some (anoAtualBase nowYear df)) ∧
        ∀ r ∈ df, ∀ y, r.anoRegisto = some y → y ≤ anoAtualBase nowYear df)
    ∧ ((¬ ∃ r ∈ df, ∃ y, r.anoRegisto = some y ∧ 2000 < y) →
        anoAtualBase nowYear df = nowYear)
    ∧ (∀ st : Status,
        emailsStatus df (anoAtualBase nowYear df - 3) st =
          dedupFirst []
            ((df.filter (claimSelect (anoAtualBase nowYear df - 3) st)).map
              (fun r => r.emailCorrigido)))
    ∧ (∀ st : Status,
        (emailsStatus df (anoAtualBase nowYear df - 3) st ≠ [] →
          joinSemi (emailsStatus df (anoAtualBase nowYear df - 3) st) ∈
            secLines df (anoAtualBase nowYear df - 3) st)
        ∧ (emailsStatus df (anoAtualBase nowYear df - 3) st = [] →
          ("Nenhum email válido encontrado para este status.".toList) ∈
            secLines df (anoAtualBase nowYear df - 3) st))
    ∧ (∀ r ∈ df, r.status = Status.ELIMINADO → r.temEmail = true →
        r.anoRegisto = some (anoAtualBase nowYear df - 3) →
        r.emailCorrigido ∈
          emailsStatus df (anoAtualBase nowYear df - 3) Status.ELIMINADO) := by
  refine ⟨fun h => anoAtualBase_max h, fun h => anoAtualBase_now h,
          fun st => emailsStatus_eq_claim df _ st, ?_, ?_⟩
  · intro st
    constructor
    · intro hne
      have hlen : 0 < (emailsStatus df (anoAtualBase nowYear df - 3) st).length :=
        List.length_pos.mpr hne
      unfold secLines
      rw [if_pos hlen]
      simp
    · intro he
      have hlen : ¬ 0 < (emailsStatus df (anoAtualBase nowYear df - 3) st).length := by
        rw [he]; simp
      unfold secLines
      rw [if_neg hlen]
      simp
  · intro r hr hst hte hy
    rw [emailsStatus_eq_claim]
    rw [mem_dedupFirst]
    refine ⟨?_, by simp⟩
    rw [List.mem_map]
    refine ⟨r, ?_, rfl⟩
    rw [List.mem_filter]
    refine ⟨hr, ?_⟩
    unfold claimSelect
    rw [if_pos rfl]
    unfold anoOk
    rw [hy, hst, hte]
    simp

/-- An `ELIMINADO` record registered in 2021, used by the C5 witness. -/
def rec21 : Record :=
  { idDador := "SL.X2.9/21".toList, nome := "ZE".toList,
    emailOriginal := "ze@x.pt".toList, emailCorrigido := "ze@x.pt".toList,
    emailFoiAlterado := false, status := Status.ELIMINADO, temEmail := true,
    anoRegisto := some 2021 }

/-- C5 witness: on a two-record table whose `ELIMINADO` record is
registered in 2021 (above 2000), the cutoff basis is the maximum
observed year, and that record — registered exactly at the cutoff basis
— bounds every observed year. -/
theorem report_sections_witness :
    (([recApto, rec21] : List Record) ≠ []
      ∧ (∃ r ∈ ([recApto, rec21] : List Record), ∃ y,
          r.anoRegisto = some y ∧ 2000 < y))
    ∧ ((∃ r ∈ ([recApto, rec21] : List Record),
          r.anoRegisto = some (anoAtualBase 2025 [recApto, rec21]))
      ∧ ∀ r ∈ ([recApto, rec21] : List Record), ∀ y,
          r.anoRegisto = some y → y ≤ anoAtualBase 2025 [recApto, rec21]) :=
  ⟨⟨by decide, ⟨rec21, by decide, 2021, by decide, by decide⟩⟩,
   (report_sections 2025 [recApto, rec21] (by decide)).1
     ⟨rec21, by decide, 2021, by decide, by decide⟩⟩

end Fiva
